import Mathlib

/-!
Shallow embedding of the word-analyzer service (`src/app.py`) and proofs of
the specification claims.  Words and phoneme symbols are modelled as
`List Char` (Python strings), the CMU pronouncing dictionary and the pyphen
hyphenator are external resources and appear as parameters (`dct`, `hyph`);
concrete fragments of them, transcribed from the real data, instantiate the
witnesses.  Python list/string slices are modelled by `pySlice` (non-negative
indices, clamping) and `pySliceI` (full Python semantics with negative
indices).  Python's `round` on `len(part)/total*len(rem)` is modelled by
exact-rational round-half-to-even (`pyRound`), which agrees with the float
computation except for representation error; no claim depends on its value.
-/

namespace WordAnalyzer

/-- Phoneme symbols and words are Python strings, modelled as `List Char`. -/
abbrev Sym := List Char

/-! ## Basic Python-string helpers -/

/-- Python slice `xs[a:b]` for non-negative `a`, `b` (clamping built in). -/
def pySlice (xs : List α) (a b : Nat) : List α := (xs.take b).drop a

/-- Convert a Python slice index (possibly negative) to a clamped Nat index. -/
def pyIdx (n : Nat) (i : Int) : Nat :=
  min ((if i < 0 then (n : Int) + i else i).toNat) n

/-- Python slice `xs[a:b]` with full semantics: negative indices count from
the end, all indices clamp to `[0, len]`. -/
def pySliceI (xs : List α) (a b : Int) : List α :=
  (xs.take (pyIdx xs.length b)).drop (pyIdx xs.length a)

/-- Python whitespace characters stripped by `str.strip()` (ASCII subset). -/
def isPySpace (c : Char) : Bool :=
  c = ' ' || c = '\t' || c = '\n' || c = '\r' || c = '\x0b' || c = '\x0c'

/-- Python `str.strip()`. -/
def pyStrip (s : List Char) : List Char :=
  ((s.dropWhile isPySpace).reverse.dropWhile isPySpace).reverse

/-- Python `str.lower()` (ASCII letters; the analyzer only sees ASCII words). -/
def lowerStr (s : List Char) : List Char := s.map Char.toLower

/-- Association-list lookup modelling a Python dict (keys are distinct). -/
def alookup [DecidableEq κ] (k : κ) : List (κ × β) → Option β
  | [] => none
  | (a, b) :: r => if a = k then some b else alookup k r

/-- Replace the last element of a list by `f` of it (no-op on `[]`),
modelling Python's `xs[-1] = f(xs[-1])` / `xs[-1].extend(...)`. -/
def modifyLast (f : α → α) : List α → List α
  | [] => []
  | [a] => [f a]
  | a :: b :: r => a :: modifyLast f (b :: r)

/-- Python `xs[-1]` with a default for the empty list. -/
def lastD (xs : List α) (d : α) : α :=
  match xs with
  | [] => d
  | [a] => a
  | _ :: b :: r => lastD (b :: r) d

/-- Python `round` of the exact rational `num/den` (`den > 0`), using
round-half-to-even, as a stand-in for the float computation in the source. -/
def pyRound (num den : Nat) : Nat :=
  let q := num / den
  let r := num % den
  if 2 * r < den then q
  else if den < 2 * r then q + 1
  else if q % 2 = 0 then q else q + 1

/-- Indices (from position `i`) of elements satisfying `p`, in order;
models `[i for i, x in enumerate(xs) if p(x)]`. -/
def filterIdx (p : α → Bool) (i : Nat) : List α → List Nat
  | [] => []
  | x :: r => if p x then i :: filterIdx p (i + 1) r else filterIdx p (i + 1) r

/-! ## Phoneme mapping (`get_phonetic`, app.py lines 41-88) -/

/-- The CMU-to-IPA table of `get_phonetic` (app.py lines 48-76); the identical
table is re-declared inline at lines 452-480. -/
def cmu_to_ipa : List (Sym × Sym) :=
  [ ("HH".toList, "h".toList), ("AH".toList, "ə".toList),
    ("N".toList, "n".toList), ("T".toList, "t".toList),
    ("ER".toList, "ɝ".toList), ("AE".toList, "æ".toList),
    ("K".toList, "k".toList), ("CH".toList, "tʃ".toList),
    ("W".toList, "w".toList), ("L".toList, "l".toList),
    ("IY".toList, "i".toList), ("EH".toList, "ɛ".toList),
    ("R".toList, "r".toList), ("IH".toList, "ɪ".toList),
    ("OW".toList, "o".toList), ("AY".toList, "aɪ".toList),
    ("EY".toList, "eɪ".toList), ("OY".toList, "ɔɪ".toList),
    ("AW".toList, "aʊ".toList), ("UW".toList, "u".toList),
    ("NG".toList, "ŋ".toList), ("SH".toList, "ʃ".toList),
    ("TH".toList, "θ".toList), ("DH".toList, "ð".toList),
    ("ZH".toList, "ʒ".toList), ("JH".toList, "dʒ".toList),
    ("Y".toList, "j".toList) ]

/-- `re.sub(r'\d+', '', phoneme)`: remove every digit of the symbol. -/
def stripDigits (p : Sym) : Sym := p.filter (fun c => !c.isDigit)

/-- One step of the mapping loop of `get_phonetic` (app.py lines 80-85):
strip the stress digits, then table lookup with identity fallback. -/
def mapPhoneme (p : Sym) : Sym :=
  let base := stripDigits p
  (alookup base cmu_to_ipa).getD base

/-- `get_phonetic(word)` (app.py lines 41-88).  `dct` is the CMU dictionary
restricted to its first-listed pronunciation (`d[word][0]`). -/
def get_phonetic (dct : List Char → Option (List Sym)) (word : List Char) :
    Option (List Sym) :=
  match dct (lowerStr word) with
  | some phonemes => some (phonemes.map mapPhoneme)
  | none => none

/-! ## Static tables of `split_syllables` -/

/-- `forced_patterns` (app.py lines 154-170). -/
def forced_patterns : List (List Char × List (List Char)) :=
  [ ("hunter".toList, ["hun".toList, "ter".toList]),
    ("paper".toList, ["pa".toList, "per".toList]),
    ("water".toList, ["wa".toList, "ter".toList]),
    ("letter".toList, ["let".toList, "ter".toList]),
    ("exchange".toList, ["ex".toList, "change".toList]),
    ("extend".toList, ["ex".toList, "tend".toList]),
    ("explain".toList, ["ex".toList, "plain".toList]),
    ("export".toList, ["ex".toList, "port".toList]),
    ("exclude".toList, ["ex".toList, "clude".toList]),
    ("lecture".toList, ["lec".toList, "ture".toList]),
    ("creature".toList, ["crea".toList, "ture".toList]),
    ("furniture".toList, ["fur".toList, "ni".toList, "ture".toList]),
    ("actually".toList, ["ac".toList, "tu".toList, "al".toList, "ly".toList]),
    ("nationality".toList,
      ["na".toList, "tion".toList, "a".toList, "li".toList, "ty".toList]),
    ("agree".toList, ["a".toList, "gree".toList]) ]

/-- `common_suffixes` (app.py lines 99-127) already ordered as Python's
stable `sorted(items, key=len, reverse=True)` visits it: length 5 first,
ties in dict insertion order. -/
def sortedSfx : List (List Char × List Sym) :=
  [ ("cious".toList, ["ʃ".toList, "ə".toList, "s".toList]),
    ("tious".toList, ["ʃ".toList, "ə".toList, "s".toList]),
    ("ture".toList, ["tʃ".toList, "ɝ".toList]),
    ("tion".toList, ["ʃ".toList, "ə".toList, "n".toList]),
    ("sion".toList, ["ʒ".toList, "ə".toList, "n".toList]),
    ("cial".toList, ["ʃ".toList, "ə".toList, "l".toList]),
    ("tial".toList, ["ʃ".toList, "ə".toList, "l".toList]),
    ("ment".toList, ["m".toList, "ə".toList, "n".toList, "t".toList]),
    ("ness".toList, ["n".toList, "ə".toList, "s".toList]),
    ("less".toList, ["l".toList, "ə".toList, "s".toList]),
    ("able".toList, ["ə".toList, "b".toList, "ə".toList, "l".toList]),
    ("ible".toList, ["ə".toList, "b".toList, "ə".toList, "l".toList]),
    ("ical".toList, ["ɪ".toList, "k".toList, "ə".toList, "l".toList]),
    ("ful".toList, ["f".toList, "ʊ".toList, "l".toList]),
    ("ial".toList, ["i".toList, "ə".toList, "l".toList]),
    ("ive".toList, ["ɪ".toList, "v".toList]),
    ("ity".toList, ["ɪ".toList, "t".toList, "i".toList]),
    ("ary".toList, ["ɛ".toList, "r".toList, "i".toList]),
    ("ery".toList, ["ɛ".toList, "r".toList, "i".toList]),
    ("ory".toList, ["ɔ".toList, "r".toList, "i".toList]),
    ("er".toList, ["ɝ".toList]),
    ("or".toList, ["ɔr".toList]),
    ("ar".toList, ["ɑr".toList]),
    ("ly".toList, ["l".toList, "i".toList]),
    ("al".toList, ["ə".toList, "l".toList]),
    ("ic".toList, ["ɪ".toList, "k".toList]),
    ("ty".toList, ["t".toList, "i".toList]) ]

/-- `common_prefixes` (app.py lines 129-148), ordered as Python's stable
`sorted(items, key=len, reverse=True)` visits it. -/
def sortedPfx : List (List Char × List Sym) :=
  [ ("under".toList, ["ʌ".toList, "n".toList, "d".toList, "ɝ".toList]),
    ("super".toList, ["s".toList, "u".toList, "p".toList, "ɝ".toList]),
    ("inter".toList, ["ɪ".toList, "n".toList, "t".toList, "ɝ".toList]),
    ("over".toList, ["o".toList, "v".toList, "ɝ".toList]),
    ("anti".toList, ["æ".toList, "n".toList, "t".toList, "i".toList]),
    ("pre".toList, ["p".toList, "r".toList, "i".toList]),
    ("dis".toList, ["d".toList, "ɪ".toList, "s".toList]),
    ("mis".toList, ["m".toList, "ɪ".toList, "s".toList]),
    ("non".toList, ["n".toList, "ɑ".toList, "n".toList]),
    ("sub".toList, ["s".toList, "ʌ".toList, "b".toList]),
    ("ex".toList, ["ɪ".toList, "k".toList, "s".toList]),
    ("de".toList, ["d".toList, "i".toList]),
    ("re".toList, ["r".toList, "i".toList]),
    ("un".toList, ["ʌ".toList, "n".toList]),
    ("in".toList, ["ɪ".toList, "n".toList]),
    ("im".toList, ["ɪ".toList, "m".toList]),
    ("il".toList, ["ɪ".toList, "l".toList]),
    ("ir".toList, ["ɪ".toList, "r".toList]) ]

/-- The CMU vowel-phoneme stems of app.py line 204. -/
def cmuVowelStems : List Sym :=
  [ "AA".toList, "AE".toList, "AH".toList, "AO".toList, "AW".toList,
    "AY".toList, "EH".toList, "ER".toList, "EY".toList, "IH".toList,
    "IY".toList, "OW".toList, "OY".toList, "UH".toList, "UW".toList ]

/-- Does a CMU symbol start with one of the vowel stems (app.py line 204)? -/
def isCmuVowel (p : Sym) : Bool := cmuVowelStems.any (fun v => v.isPrefixOf p)

/-- Letters counted as vowels by the letter-level heuristics
(`vowels = 'aeiouy'`, app.py line 497). -/
def vowelsY : List Char := ['a', 'e', 'i', 'o', 'u', 'y']

/-- The five pure vowel letters (`vowel_prefixes`, app.py line 151, and the
string `'aeiou'` at line 339). -/
def vowelsNoY : List Char := ['a', 'e', 'i', 'o', 'u']

/-! ## Forced-pattern branch (app.py lines 172-190) -/

/-- The allocation loop (lines 180-184): each pattern syllable takes
`min(len(syllable), len(remaining))` phonemes off the front; returns the
groups and the unallocated remainder. -/
def forcedGo : List (List Char) → List Sym → List (List Sym) × List Sym
  | [], rem => ([], rem)
  | s :: rest, rem =>
    let k := min s.length rem.length
    let pr := forcedGo rest (rem.drop k)
    (rem.take k :: pr.1, pr.2)

/-- Lines 176-188: allocate phonemes to the forced syllables, appending any
leftover phonemes to the last group. -/
def forcedAssign (pat : List (List Char)) (phonemes : List Sym) :
    List (List Sym) :=
  let pr := forcedGo pat phonemes
  if pr.2 = [] then pr.1 else modifyLast (· ++ pr.2) pr.1

/-! ## The 'er', 'ex' and 'ture' branches (app.py lines 209-307) -/

/-- `n - 1` consecutive slices of width `pps` followed by the remainder,
modelling the even allocation loops at lines 231-237, 265-271 and 642-648. -/
def evenChunks (xs : List α) (n pps : Nat) : List (List α) :=
  ((List.range (n - 1)).map (fun i => pySlice xs (i * pps) ((i + 1) * pps)))
    ++ [xs.drop ((n - 1) * pps)]

/-- The 'er'-suffix branch (lines 211-240).  `word.rfind('er')` for a word
ending in `'er'` is `len(word) - 2`. -/
def erBranch (hyph : List Char → List (List Char)) (word : List Char)
    (phonemes : List Sym) : List (List Sym) × List (List Char) :=
  let er_pos := word.length - 2
  let prefix_syllables := hyph (word.take er_pos)
  let result_syllables := prefix_syllables ++ ["er".toList]
  let pps := phonemes.length / result_syllables.length
  (evenChunks phonemes result_syllables.length pps, result_syllables)

/-- The 'ex'-prefix branch (lines 243-274). -/
def exBranch (hyph : List Char → List (List Char)) (word : List Char)
    (phonemes : List Sym) : List (List Sym) × List (List Char) :=
  let remainder_syllables := hyph (word.drop 2)
  let result_syllables := "ex".toList :: remainder_syllables
  let ex_phonemes := phonemes.take (min 3 phonemes.length)
  let remainder_phonemes := phonemes.drop (min 3 phonemes.length)
  let groups :=
    if remainder_syllables ≠ [] then
      let k := remainder_syllables.length
      ex_phonemes :: evenChunks remainder_phonemes k (remainder_phonemes.length / k)
    else [ex_phonemes]
  (groups, result_syllables)

/-- The 'ture'-suffix branch (lines 277-307).  `ture_phoneme_index` may be
negative (`len - 2` as a Python int) so the slices use `pySliceI`, and the
divisions are Python's flooring `//` (`Int.fdiv`). -/
def tureBranch (hyph : List Char → List (List Char)) (word : List Char)
    (phonemes : List Sym) : List (List Sym) × List (List Char) :=
  let ture_pos := word.length - 4
  let prefix_syllables := hyph (word.take ture_pos)
  let result_syllables := prefix_syllables ++ ["ture".toList]
  let tpi : Int := (phonemes.length : Int) - 2
  let k := prefix_syllables.length
  let ppps : Int := Int.fdiv tpi (k : Int)
  let pfxGroups := (List.range k).map (fun i : Nat =>
    pySliceI phonemes ((i : Int) * ppps)
      (if (i : Int) < (k : Int) - 1 then ((i : Int) + 1) * ppps else tpi))
  (pfxGroups ++ [pySliceI phonemes tpi (phonemes.length : Int)], result_syllables)

/-! ## Affix-structure branch (app.py lines 309-415) -/

/-- First matching common suffix (lines 315-322): longest first, the match
must not consume the whole word. -/
def findSfx (word : List Char) : Option (List Char × List Sym) :=
  sortedSfx.find? (fun s => s.1.isSuffixOf word && decide (s.1.length < word.length))

/-- First matching common prefix (lines 329-335), over the word with any
found suffix already removed. -/
def findPfx (rw : List Char) : Option (List Char × List Sym) :=
  sortedPfx.find? (fun s => s.1.isPrefixOf rw && decide (s.1.length < rw.length))

/-- The proportional-allocation loop of lines 384-394: one phoneme group per
remaining part, counted by a rounded length share, clamped to what is left;
returns the groups and the final cursor. -/
def distGo (rem : List Sym) (total : Nat) :
    List (List Char) → Nat → List (List Sym) × Nat
  | [], cur => ([], cur)
  | p :: rest, cur =>
    let c := min (max 1 (pyRound (p.length * rem.length) total))
                 (rem.length - cur)
    let dr := distGo rem total rest (cur + c)
    (pySlice rem cur (cur + c) :: dr.1, dr.2)

/-- The middle-segment assembly of lines 378-406: when both the hyphenated
remaining parts and the estimated remaining phonemes are non-empty,
distribute the phonemes proportionally (leftover appended to the last
group); otherwise keep the remaining word as a single part. -/
def middleOf (hyph : List Char → List (List Char)) (rw2 : List Char)
    (remaining_phonemes : List Sym) : List (List Sym) × List (List Char) :=
  if hyph rw2 ≠ [] ∧ remaining_phonemes ≠ [] then
    let total := ((hyph rw2).map List.length).sum
    let dr := distGo remaining_phonemes total (hyph rw2) 0
    (if dr.2 < remaining_phonemes.length
     then modifyLast (· ++ remaining_phonemes.drop dr.2) dr.1
     else dr.1, hyph rw2)
  else ([remaining_phonemes], [rw2])

/-- The whole affix-structure section (lines 309-415): suffix scan, prefix
scan, single-vowel prefix, and — when an affix was found — the assembled
(groups, parts) result.  `none` means fall through to the boundary stage. -/
def affixSection (hyph : List Char → List (List Char)) (word : List Char)
    (phonemes : List Sym) (vowel_indices : List Nat) :
    Option (List (List Sym) × List (List Char)) :=
  let sfxHit := findSfx word
  let rw1 := match sfxHit with
             | some su => word.take (word.length - su.1.length)
             | none => word
  let suffix_phonemes := match sfxHit with
                         | some su => su.2
                         | none => ([] : List Sym)
  let pfxHit := findPfx rw1
  let vowelPfx : Option (List Char) :=
    match pfxHit with
    | some _ => none
    | none =>
      match rw1 with
      | c :: _ =>
        if vowelsNoY.contains c ∧ 1 < rw1.length
            ∧ ¬(vowelsNoY.contains (rw1.getD 1 ' ')) then some [c] else none
      | [] => none
  let prefix_result : Option (List Char) :=
    match pfxHit with
    | some pu => some pu.1
    | none => vowelPfx
  let prefix_phonemes : List Sym :=
    match pfxHit with
    | some pu => pu.2
    | none =>
      match vowelPfx with
      | some _ =>
        if vowel_indices ≠ [] ∧ vowel_indices.getD 0 0 < phonemes.length
        then [phonemes.getD (vowel_indices.getD 0 0) []] else []
      | none => []
  let rw2 := match pfxHit with
             | some pu => rw1.drop pu.1.length
             | none =>
               match vowelPfx with
               | some _ => rw1.drop 1
               | none => rw1
  if (sfxHit.isSome ∨ prefix_result.isSome) ∧ rw2 ≠ [] then
    let parts0 := match prefix_result with
                  | some p => [p]
                  | none => ([] : List (List Char))
    let pp0 := match prefix_result with
               | some _ => [prefix_phonemes]
               | none => ([] : List (List Sym))
    let n : Int := (phonemes.length : Int)
    let remaining_phonemes :=
      if prefix_result.isSome ∧ sfxHit.isSome then
        pySliceI phonemes (prefix_phonemes.length : Int)
          (n - (suffix_phonemes.length : Int))
      else if prefix_result.isSome then
        pySliceI phonemes (prefix_phonemes.length : Int) n
      else if sfxHit.isSome then
        pySliceI phonemes 0 (n - (suffix_phonemes.length : Int))
      else []
    let middle := middleOf hyph rw2 remaining_phonemes
    let pp1 := pp0 ++ middle.1
    let parts1 := parts0 ++ middle.2
    match sfxHit with
    | some su => some (pp1 ++ [su.2], parts1 ++ [su.1])
    | none => some (pp1, parts1)
  else none

/-! ## Phoneme-position boundary stage (app.py lines 417-492) -/

/-- Boundaries between consecutive vowel-phoneme indices (lines 421-434):
with `cc` consonants in between, the boundary is `v + 1` for `cc ≤ 1` and
`v + 1 + cc // 2` otherwise. -/
def boundariesFrom : List Nat → List Nat
  | a :: b :: rest =>
    (if 2 ≤ b - a - 1 then a + 1 + (b - a - 1) / 2 else a + 1)
      :: boundariesFrom (b :: rest)
  | _ => []

/-- Cut a list at the given ascending boundaries (lines 437-442). -/
def splitAtBds (xs : List Sym) : List Nat → Nat → List (List Sym)
  | [], start => [xs.drop start]
  | b :: rest, start => pySlice xs start b :: splitAtBds xs rest b

/-- The boundary stage (lines 417-483): cut the raw CMU sequence at the
vowel-derived boundaries and convert each piece with the (re-declared,
identical) CMU-to-IPA table. -/
def boundaryGroups (cmu : List Sym) : List (List Sym) :=
  (splitAtBds cmu (boundariesFrom (filterIdx isCmuVowel 0 cmu)) 0).map
    (fun sy => sy.map mapPhoneme)

/-! ## Letter-structure loop (app.py lines 500-566) -/

/-- Number of consecutive positions from `j` whose character satisfies `p`
(stopping at the end of the word); the Python `while` loops advance by
exactly this amount. -/
def scanSkip (p : Char → Bool) (word : List Char) (j : Nat) : Nat :=
  if h : j < word.length then
    if p (word.get ⟨j, h⟩) then 1 + scanSkip p word (j + 1) else 0
  else 0
termination_by word.length - j

/-- `while pos < len(word) and word[pos] not in vowels: pos += 1`. -/
def scanToVowel (word : List Char) (j : Nat) : Nat :=
  j + scanSkip (fun c => !(vowelsY.contains c)) word j

/-- `while pos < len(word) and word[pos] in vowels: pos += 1`. -/
def scanToCons (word : List Char) (j : Nat) : Nat :=
  j + scanSkip (fun c => vowelsY.contains c) word j

/-- The structure-based while loop (lines 500-566), with the growing
`syllables` accumulator made explicit. -/
def structLoop (word : List Char) (i : Nat) (acc : List (List Char)) :
    List (List Char) :=
  if h : i < word.length then
    match (sortedSfx.map (fun x => x.1)).find?
        (fun s => s.isSuffixOf (word.drop i) && decide (i + s.length < word.length)) with
    | some _ => acc ++ (if 0 < i then [word.take i] else []) ++ [word.drop i]
    | none =>
      if vowelsY.contains (word.get ⟨i, h⟩) then
        let nvp := scanToVowel word (i + 1)
        if word.length ≤ nvp then acc ++ [word.drop i]
        else
          if 2 ≤ nvp - i - 1 then
            structLoop word (i + 1 + (nvp - i - 1) / 2)
              (acc ++ [pySlice word i (i + 1 + (nvp - i - 1) / 2)])
          else structLoop word (i + 2) (acc ++ [pySlice word i (i + 2)])
      else
        let vp := scanToVowel word i
        if word.length ≤ vp then acc ++ [word.drop i]
        else
          let ncp := scanToCons word (vp + 1)
          if word.length ≤ ncp then acc ++ [word.drop i]
          else structLoop word ncp (acc ++ [pySlice word i ncp])
  else acc
termination_by word.length - i
decreasing_by
  · simp only [scanToVowel, scanToCons]
    omega
  · omega
  · simp only [scanToVowel, scanToCons]
    omega

/-! ## Vowel-position fallback (app.py lines 589-651) -/

/-- The consonant-count loop of lines 610-614. -/
def ccLoop (word : List Char) (ngs temp : Nat) : Nat :=
  if h : temp < word.length then
    if temp < ngs ∧ ¬(vowelsY.contains (word.get ⟨temp, h⟩))
    then 1 + ccLoop word ngs (temp + 1) else 0
  else 0
termination_by word.length - temp

/-- The non-final `end_pos` computation of one iteration of lines 601-617:
advance past the vowels after the group's last vowel, then shift by half of
the following bounded consonant run when it has at least two consonants. -/
def endAt (word : List Char) (vpos : List Nat) (vps i : Nat) : Nat :=
  let ngs := vpos.getD (i + vps) 0
  let ep0 := scanToCons word (vpos.getD (i + vps - 1) 0 + 1)
  let cc := ccLoop word ngs ep0
  if 2 ≤ cc then ep0 + cc / 2 else ep0

/-- The `(start_pos, end_pos)` tuple appended by one iteration of lines
596-621: start at the previous tuple's end (0 for the first), end at
`len(word)` when the vowel groups are exhausted or exactly one syllable
remains to fill, otherwise at the computed boundary `endAt`. -/
def nextTuple (word : List Char) (vpos : List Nat) (vpsm1 nsp : Nat)
    (i : Nat) (even : List (Nat × Nat)) : Nat × Nat :=
  (match even with
   | [] => 0
   | _ => (lastD even (0, 0)).2,
   if vpos.length ≤ i + (vpsm1 + 1) ∨ (even.length : Int) = (nsp : Int) - 1
   then word.length
   else endAt word vpos (vpsm1 + 1) i)

/-- The tuple-building loop of lines 595-625.  `vps = vpsm1 + 1` (the source
clamps `vowels_per_syllable` to at least 1 before the loop).  The comparison
with `len(sp) - 1` is over Python ints, hence the cast to `Int` inside
`nextTuple`. -/
def evenLoop (word : List Char) (vpos : List Nat) (vpsm1 nsp : Nat)
    (i : Nat) (even : List (Nat × Nat)) : List (Nat × Nat) :=
  if _h : i < vpos.length then
    if (even ++ [nextTuple word vpos vpsm1 nsp i even]).length = nsp
    then even ++ [nextTuple word vpos vpsm1 nsp i even]
    else evenLoop word vpos vpsm1 nsp (i + (vpsm1 + 1))
      (even ++ [nextTuple word vpos vpsm1 nsp i even])
  else even
termination_by vpos.length - i

/-- Lines 589-651: build the position tuples, convert them to syllables,
extend the last one to the end of the word if needed, and fall back to the
uniform character split when the count still disagrees. -/
def evenSplitResult (word : List Char) (nsp : Nat) (vpos : List Nat) :
    List (List Char) :=
  let vps0 := vpos.length / nsp
  let vps := if vps0 < 1 then 1 else vps0
  let even := evenLoop word vpos (vps - 1) nsp 0 []
  let result0 := even.map (fun se => pySlice word se.1 se.2)
  let result :=
    if even ≠ [] ∧ (lastD even (0, 0)).2 < word.length
    then modifyLast (· ++ word.drop (lastD even (0, 0)).2) result0
    else result0
  if result.length ≠ nsp then evenChunks word nsp (word.length / nsp)
  else result

/-- Guard of the er-suffix branch (app.py lines 211-217). -/
abbrev erGuard (word : List Char) (cmu : List Sym) (vi : List Nat) : Prop :=
  "er".toList.isSuffixOf word ∧ 2 < word.length ∧ 2 ≤ vi.length
    ∧ (pySlice cmu (cmu.length - 2) cmu.length).contains "ER".toList
    ∧ 0 < word.length - 2

/-- Guard of the ex-prefix branch (line 243). -/
abbrev exGuard (word : List Char) : Prop :=
  "ex".toList.isPrefixOf word ∧ 2 < word.length

/-- Guard of the ture-suffix branch (lines 277-280). -/
abbrev tureGuard (word : List Char) : Prop :=
  "ture".toList.isSuffixOf word ∧ 4 < word.length ∧ 0 < word.length - 4

/-! ## `split_syllables` (app.py lines 90-651) and `analyze_word` (658-689) -/

/-- `split_syllables(word)`: `none` models Python's `(None, None)`; a `some`
carries `(syllable_phonemes, syllables)` in the source's return order. -/
def split_syllables (dct : List Char → Option (List Sym))
    (hyph : List Char → List (List Char)) (w0 : List Char) :
    Option (List (List Sym) × List (List Char)) :=
  let word := lowerStr w0
  match get_phonetic dct word with
  | none => none
  | some phonemes =>
    if phonemes = [] then none
    else
      match alookup word forced_patterns with
      | some pat => some (forcedAssign pat phonemes, pat)
      | none =>
        match dct word with
        | none => none
        | some cmu_phonemes =>
          let vowel_indices := filterIdx isCmuVowel 0 cmu_phonemes
          if erGuard word cmu_phonemes vowel_indices then
            some (erBranch hyph word phonemes)
          else if exGuard word then
            some (exBranch hyph word phonemes)
          else if tureGuard word then
            some (tureBranch hyph word phonemes)
          else
            match affixSection hyph word phonemes vowel_indices with
            | some res => some res
            | none =>
              let syllable_phonemes := boundaryGroups cmu_phonemes
              let initial_syllables := hyph word
              if syllable_phonemes.length = initial_syllables.length then
                some (syllable_phonemes, initial_syllables)
              else
                let syllables := structLoop word 0 []
                if syllables.length = syllable_phonemes.length then
                  some (syllable_phonemes, syllables)
                else if initial_syllables.length = syllable_phonemes.length then
                  some (syllable_phonemes, initial_syllables)
                else
                  let vowel_positions :=
                    filterIdx (fun c => vowelsY.contains c) 0 word
                  if vowel_positions = [] then some ([phonemes], [word])
                  else
                    some (syllable_phonemes,
                      evenSplitResult word syllable_phonemes.length vowel_positions)

/-- Error kinds of the `/analyze` endpoint: empty word after normalization
(400), word without phonetic entry (404), syllable split failure (400). -/
inductive AnalyzeError where
  | invalidInput : AnalyzeError
  | wordNotFound : AnalyzeError
  | splitFailure : AnalyzeError
deriving DecidableEq, Repr

/-- One element of the response's `syllables` array. -/
structure SyllableOut where
  text : List Char
  phonetic : List Sym
deriving DecidableEq, Repr

/-- The success response of `/analyze` (app.py lines 679-683): the
normalized word, the full mapped phoneme sequence, and the zipped
text/phonetic syllable objects — these three fields and nothing else. -/
structure AnalyzeResult where
  word : List Char
  full_phonetic : List Sym
  syllables : List SyllableOut
deriving DecidableEq, Repr

instance instDecEqExcept {ε α : Type} [DecidableEq ε] [DecidableEq α] :
    DecidableEq (Except ε α) := fun a b =>
  match a, b with
  | .error e1, .error e2 =>
    if h : e1 = e2 then .isTrue (by rw [h])
    else .isFalse (by intro hc; injection hc with h2; exact h h2)
  | .error _, .ok _ => .isFalse (by intro hc; cases hc)
  | .ok _, .error _ => .isFalse (by intro hc; cases hc)
  | .ok a1, .ok a2 =>
    if h : a1 = a2 then .isTrue (by rw [h])
    else .isFalse (by intro hc; injection hc with h2; exact h h2)

/-- `data.get('word', '').strip().lower()` (app.py line 665). -/
def normalizeInput (raw : List Char) : List Char := lowerStr (pyStrip raw)

/-- The `/analyze` handler `analyze_word` (app.py lines 658-689), with the
JSON transport stripped away. -/
def analyze_word (dct : List Char → Option (List Sym))
    (hyph : List Char → List (List Char)) (raw : List Char) :
    Except AnalyzeError AnalyzeResult :=
  let word := normalizeInput raw
  if word = [] then .error .invalidInput
  else
    match get_phonetic dct word with
    | none => .error .wordNotFound
    | some phonemes =>
      if phonemes = [] then .error .wordNotFound
      else
        match split_syllables dct hyph word with
        | none => .error .splitFailure
        | some gs =>
          if gs.1 = [] ∨ gs.2 = [] then .error .splitFailure
          else .ok { word := word, full_phonetic := phonemes,
                     syllables := (gs.2.zip gs.1).map (fun p => ⟨p.1, p.2⟩) }

/-! ## Concrete external-resource fragments for witnesses -/

/-- Fragment of the CMU pronouncing dictionary (first-listed pronunciations),
transcribed from the real cmudict entries; `zzz` has no entry there. -/
def cmuFragment : List (List Char × List Sym) :=
  [ ("hunter".toList,
      ["HH".toList, "AH1".toList, "N".toList, "T".toList, "ER0".toList]),
    ("paper".toList, ["P".toList, "EY1".toList, "P".toList, "ER0".toList]),
    ("good".toList, ["G".toList, "UH1".toList, "D".toList]),
    ("one".toList, ["W".toList, "AH1".toList, "N".toList]),
    ("hmm".toList, ["HH".toList, "M".toList]) ]

/-- The dictionary fragment as a lookup function. -/
def dct₀ (w : List Char) : Option (List Sym) := alookup w cmuFragment

/-- Concrete hyphenator: pyphen en_US leaves every string that appears in
the concrete traces below unhyphenated, so its value there is `[s]`. -/
def hyph₀ (s : List Char) : List (List Char) := [s]

/-! ## Predicates and spec-side definitions used by the statements -/

/-- A boundary list is ascending, starting no lower than `s`. -/
def bdsLE : Nat → List Nat → Prop
  | _, [] => True
  | s, b :: r => s ≤ b ∧ bdsLE b r

/-- The position tuples form a chain: each start is the previous end
(`s` for the first) and no end precedes its start. -/
def chained : Nat → List (Nat × Nat) → Prop
  | _, [] => True
  | s, ab :: r => ab.1 = s ∧ s ≤ ab.2 ∧ chained ab.2 r

/-- The end of the last tuple, `d` when there is none. -/
def lastEnd (ts : List (Nat × Nat)) (d : Nat) : Nat := (lastD ts (0, d)).2

/-- Does the control flow of `split_syllables` reach the affix-structure
section (lines 309-415) and return its result?  Mirrors the guards of
`split_syllables` stage by stage. -/
def usedAffixBranch (dct : List Char → Option (List Sym))
    (hyph : List Char → List (List Char)) (w0 : List Char) : Bool :=
  let word := lowerStr w0
  match get_phonetic dct word with
  | none => false
  | some phonemes =>
    if phonemes = [] then false
    else
      match alookup word forced_patterns with
      | some _ => false
      | none =>
        match dct word with
        | none => false
        | some cmu_phonemes =>
          let vowel_indices := filterIdx isCmuVowel 0 cmu_phonemes
          if erGuard word cmu_phonemes vowel_indices then false
          else if exGuard word then false
          else if tureGuard word then false
          else (affixSection hyph word phonemes vowel_indices).isSome

/-- Remove only the trailing digits of a symbol (the stress suffix). -/
def stripTrailingDigits (p : Sym) : Sym :=
  (p.reverse.dropWhile Char.isDigit).reverse

/-- The per-symbol mapping in the spec's own words, as amended: strip the
trailing stress digit, look the base symbol up in the fixed table, and pass
an unknown base symbol through unchanged. -/
def specMapSym (p : Sym) : Sym :=
  let base := stripTrailingDigits p
  (alookup base cmu_to_ipa).getD base

/-- The per-symbol mapping exactly as the claim states it: like
`specMapSym`, but an unknown base symbol is passed through lowercased. -/
def specMapSymLower (p : Sym) : Sym :=
  let base := stripTrailingDigits p
  (alookup base cmu_to_ipa).getD (lowerStr base)

/-- The full response for `hunter` (forced-pattern branch). -/
def r_hunter : AnalyzeResult :=
  { word := "hunter".toList,
    full_phonetic := ["h".toList, "ə".toList, "n".toList, "t".toList, "ɝ".toList],
    syllables :=
      [ ⟨"hun".toList, ["h".toList, "ə".toList, "n".toList]⟩,
        ⟨"ter".toList, ["t".toList, "ɝ".toList]⟩ ] }

/-- The full response for `paper` (forced-pattern branch; the unmapped CMU
symbols `P` pass through unchanged). -/
def r_paper : AnalyzeResult :=
  { word := "paper".toList,
    full_phonetic := ["P".toList, "eɪ".toList, "P".toList, "ɝ".toList],
    syllables :=
      [ ⟨"pa".toList, ["P".toList, "eɪ".toList]⟩,
        ⟨"per".toList, ["P".toList, "ɝ".toList]⟩ ] }

/-- The full response for `good`: one syllable via the pyphen-agreement
path, with the unmapped CMU symbols `G`, `UH`, `D` passed through. -/
def r_good : AnalyzeResult :=
  { word := "good".toList,
    full_phonetic := ["G".toList, "UH".toList, "D".toList],
    syllables := [⟨"good".toList, ["G".toList, "UH".toList, "D".toList]⟩] }

/-- The full response for `one` (affix-structure branch: a lone-vowel
prefix `o`; the phoneme groups misalign with the full sequence). -/
def r_one : AnalyzeResult :=
  { word := "one".toList,
    full_phonetic := ["w".toList, "ə".toList, "n".toList],
    syllables :=
      [ ⟨"o".toList, ["ə".toList]⟩,
        ⟨"ne".toList, ["ə".toList, "n".toList]⟩ ] }

/-! ## Lemmas: characters and normalization -/

theorem charOfNat_toNat (n : Nat) (h : n.isValidChar) :
    (Char.ofNat n).toNat = n := by
  simp [Char.ofNat, h, Char.ofNatAux, Char.toNat, UInt32.toNat, BitVec.toNat_ofNatLt]

theorem toLower_idem (c : Char) : (c.toLower).toLower = c.toLower := by
  unfold Char.toLower
  by_cases h : c.toNat ≥ 65 ∧ c.toNat ≤ 90
  · rw [if_pos h]
    have hv : (c.toNat + 32).isValidChar := by
      left
      omega
    have hn : (Char.ofNat (c.toNat + 32)).toNat = c.toNat + 32 :=
      charOfNat_toNat _ hv
    rw [if_neg]
    omega
  · rw [if_neg h, if_neg h]

theorem lowerStr_idem (s : List Char) : lowerStr (lowerStr s) = lowerStr s := by
  simp only [lowerStr, List.map_map]
  exact List.map_congr_left fun c _ => toLower_idem c

theorem isPySpace_toLower (c : Char) : isPySpace c.toLower = isPySpace c := by
  unfold Char.toLower
  by_cases h : c.toNat ≥ 65 ∧ c.toNat ≤ 90
  · rw [if_pos h]
    have hv : (c.toNat + 32).isValidChar := by
      left
      omega
    have hn : (Char.ofNat (c.toNat + 32)).toNat = c.toNat + 32 :=
      charOfNat_toNat _ hv
    have hfalse : ∀ d : Char, d.toNat ≥ 65 → isPySpace d = false := by
      intro d hd
      unfold isPySpace
      have h32 : d ≠ ' ' := fun he => by
        rw [he] at hd
        exact absurd hd (by decide)
      have h9 : d ≠ '\t' := fun he => by
        rw [he] at hd
        exact absurd hd (by decide)
      have h10 : d ≠ '\n' := fun he => by
        rw [he] at hd
        exact absurd hd (by decide)
      have h13 : d ≠ '\r' := fun he => by
        rw [he] at hd
        exact absurd hd (by decide)
      have h11 : d ≠ '\x0b' := fun he => by
        rw [he] at hd
        exact absurd hd (by decide)
      have h12 : d ≠ '\x0c' := fun he => by
        rw [he] at hd
        exact absurd hd (by decide)
      simp [h32, h9, h10, h13, h11, h12]
    rw [hfalse _ (by omega), hfalse _ (by omega)]
  · rw [if_neg h]

theorem dropWhile_isPySpace_map (s : List Char) :
    List.dropWhile isPySpace (s.map Char.toLower)
      = (List.dropWhile isPySpace s).map Char.toLower := by
  rw [List.dropWhile_map]
  have hf : isPySpace ∘ Char.toLower = isPySpace := funext isPySpace_toLower
  rw [hf]

theorem pyStrip_lowerStr (s : List Char) :
    pyStrip (lowerStr s) = lowerStr (pyStrip s) := by
  unfold pyStrip lowerStr
  rw [dropWhile_isPySpace_map, ← List.map_reverse, dropWhile_isPySpace_map,
    List.map_reverse]

theorem normalizeInput_lowerStr (s : List Char) :
    normalizeInput (lowerStr s) = normalizeInput s := by
  unfold normalizeInput
  rw [pyStrip_lowerStr, lowerStr_idem]

theorem lowerStr_normalizeInput (s : List Char) :
    lowerStr (normalizeInput s) = normalizeInput s := by
  unfold normalizeInput
  rw [lowerStr_idem]

/-! ## Lemmas: Python slices -/

theorem pySlice_eq_drop_take (xs : List α) (a b : Nat) :
    pySlice xs a b = (xs.drop a).take (b - a) := by
  simp [pySlice, List.drop_take]

theorem pySlice_append_pySlice (xs : List α) (a b c : Nat)
    (h1 : a ≤ b) (h2 : b ≤ c) :
    pySlice xs a b ++ pySlice xs b c = pySlice xs a c := by
  rw [pySlice_eq_drop_take, pySlice_eq_drop_take, pySlice_eq_drop_take]
  have hd : xs.drop b = (xs.drop a).drop (b - a) := by
    rw [List.drop_drop]
    congr 1
    omega
  rw [hd, ← List.take_add]
  congr 1
  omega

theorem pySlice_append_drop (xs : List α) (a b : Nat) (h : a ≤ b) :
    pySlice xs a b ++ xs.drop b = xs.drop a := by
  rw [pySlice_eq_drop_take]
  have hd : xs.drop b = (xs.drop a).drop (b - a) := by
    rw [List.drop_drop]
    congr 1
    omega
  rw [hd, List.take_append_drop]

theorem pySlice_zero (xs : List α) (b : Nat) : pySlice xs 0 b = xs.take b := by
  simp [pySlice]

theorem pySlice_self (xs : List α) (a : Nat) : pySlice xs a a = [] :=
  List.drop_eq_nil_of_le (by simp)

theorem pySlice_full (xs : List α) (b : Nat) (h : xs.length ≤ b) :
    pySlice xs 0 b = xs := by
  rw [pySlice_zero]
  exact List.take_of_length_le h

theorem pySliceI_nonneg (xs : List α) (a b : Nat) :
    pySliceI xs (a : Int) (b : Int) = pySlice xs (min a xs.length) (min b xs.length) := by
  unfold pySliceI pyIdx
  rw [if_neg (by omega : ¬ ((a : Int) < 0)), if_neg (by omega : ¬ ((b : Int) < 0))]
  simp [pySlice]

/-! ## Lemmas: modifyLast and lastD -/

theorem length_modifyLast (f : α → α) :
    ∀ xs : List α, (modifyLast f xs).length = xs.length
  | [] => rfl
  | [_] => rfl
  | a :: b :: r => by
    simp only [modifyLast, List.length_cons]
    rw [length_modifyLast f (b :: r)]
    simp

theorem flatten_modifyLast_append (r : List β) :
    ∀ gs : List (List β), gs ≠ [] →
      (modifyLast (· ++ r) gs).flatten = gs.flatten ++ r
  | [], h => absurd rfl h
  | [_], _ => by simp [modifyLast]
  | a :: b :: t, _ => by
    simp only [modifyLast, List.flatten_cons, List.append_assoc]
    rw [flatten_modifyLast_append r (b :: t) (by simp)]
    simp

/-! ## Lemmas: evenChunks -/

theorem flatten_range_map_pySlice (xs : List α) (pps : Nat) :
    ∀ m, (((List.range m).map
      (fun i => pySlice xs (i * pps) ((i + 1) * pps)))).flatten
      = xs.take (m * pps) := by
  intro m
  induction m with
  | zero => simp
  | succ k ih =>
    rw [List.range_succ, List.map_append, List.flatten_append, ih]
    simp only [List.map_cons, List.map_nil, List.flatten_cons, List.flatten_nil,
      List.append_nil]
    have h0 : xs.take (k * pps) = pySlice xs 0 (k * pps) := (pySlice_zero xs _).symm
    rw [h0, pySlice_append_pySlice xs 0 (k * pps) ((k + 1) * pps)
      (Nat.zero_le _) (by nlinarith), pySlice_zero]

theorem flatten_evenChunks (xs : List α) (n pps : Nat) :
    (evenChunks xs n pps).flatten = xs := by
  unfold evenChunks
  rw [List.flatten_append, flatten_range_map_pySlice]
  simp [List.take_append_drop]

theorem length_evenChunks (xs : List α) (n pps : Nat) :
    (evenChunks xs n pps).length = (n - 1) + 1 := by
  simp [evenChunks]

/-! ## Lemmas: forced patterns -/

theorem forcedGo_flatten :
    ∀ (pat : List (List Char)) (ph : List Sym),
      (forcedGo pat ph).1.flatten ++ (forcedGo pat ph).2 = ph
  | [], ph => by simp [forcedGo]
  | s :: rest, ph => by
    simp only [forcedGo, List.flatten_cons, List.append_assoc]
    rw [forcedGo_flatten rest (ph.drop (min s.length ph.length))]
    exact List.take_append_drop _ ph

theorem forcedGo_length :
    ∀ (pat : List (List Char)) (ph : List Sym),
      (forcedGo pat ph).1.length = pat.length
  | [], _ => rfl
  | s :: rest, ph => by
    simp only [forcedGo, List.length_cons]
    rw [forcedGo_length rest]

theorem forcedAssign_flatten (pat : List (List Char)) (ph : List Sym)
    (hne : pat ≠ []) : (forcedAssign pat ph).flatten = ph := by
  unfold forcedAssign
  by_cases h : (forcedGo pat ph).2 = []
  · rw [if_pos h]
    have := forcedGo_flatten pat ph
    rw [h, List.append_nil] at this
    exact this
  · rw [if_neg h]
    have hlen : (forcedGo pat ph).1 ≠ [] := by
      intro hcon
      have := forcedGo_length pat ph
      rw [hcon] at this
      exact hne (List.length_eq_zero.mp this.symm)
    rw [flatten_modifyLast_append _ _ hlen]
    exact forcedGo_flatten pat ph

theorem forcedAssign_length (pat : List (List Char)) (ph : List Sym) :
    (forcedAssign pat ph).length = pat.length := by
  unfold forcedAssign
  by_cases h : (forcedGo pat ph).2 = []
  · rw [if_pos h, forcedGo_length]
  · rw [if_neg h, length_modifyLast, forcedGo_length]

/-! ## Lemmas: lookup and affix membership -/

theorem alookup_mem [DecidableEq κ] (k : κ) (v : β) :
    ∀ l : List (κ × β), alookup k l = some v → (k, v) ∈ l
  | [], h => by simp [alookup] at h
  | (a, b) :: r, h => by
    unfold alookup at h
    by_cases he : a = k
    · rw [if_pos he] at h
      obtain rfl := he
      injection h with hbv
      subst hbv
      exact List.mem_cons_self _ _
    · rw [if_neg he] at h
      exact List.mem_cons_of_mem _ (alookup_mem k v r h)

theorem isPrefixOf_ex :
    ∀ {s w : List Char}, s.isPrefixOf w = true → ∃ t, w = s ++ t := by
  intro s
  induction s with
  | nil => exact fun {w} _ => ⟨w, rfl⟩
  | cons a s' ih =>
    intro w h
    cases w with
    | nil => simp [List.isPrefixOf] at h
    | cons b w' =>
      simp only [List.isPrefixOf, Bool.and_eq_true, beq_iff_eq] at h
      obtain ⟨rfl, h2⟩ := h
      obtain ⟨t, rfl⟩ := ih h2
      exact ⟨t, rfl⟩

theorem ex_isPrefixOf :
    ∀ {s t : List Char}, s.isPrefixOf (s ++ t) = true := by
  intro s
  induction s with
  | nil => simp [List.isPrefixOf]
  | cons a s' ih => simp [List.isPrefixOf, ih]

theorem isSuffixOf_ex {s w : List Char} (h : s.isSuffixOf w = true) :
    ∃ t, w = t ++ s := by
  unfold List.isSuffixOf at h
  obtain ⟨t, ht⟩ := isPrefixOf_ex h
  refine ⟨t.reverse, ?_⟩
  have := congrArg List.reverse ht
  simpa using this

theorem ex_isSuffixOf {s t : List Char} : s.isSuffixOf (t ++ s) = true := by
  unfold List.isSuffixOf
  rw [List.reverse_append]
  exact ex_isPrefixOf

/-! ## Lemmas: scans and counters -/

theorem scanSkip_le (p : Char → Bool) (word : List Char) (j : Nat) :
    scanSkip p word j ≤ word.length - j := by
  induction j using scanSkip.induct p word with
  | case1 j h hp ih =>
    rw [scanSkip, dif_pos h, if_pos hp]
    omega
  | case2 j h hp =>
    rw [scanSkip, dif_pos h, if_neg hp]
    omega
  | case3 j h =>
    rw [scanSkip, dif_neg h]
    omega

theorem scanToVowel_ge (word : List Char) (j : Nat) : j ≤ scanToVowel word j :=
  Nat.le_add_right _ _

theorem scanToCons_ge (word : List Char) (j : Nat) : j ≤ scanToCons word j :=
  Nat.le_add_right _ _

theorem scanToVowel_le (word : List Char) (j : Nat) (h : j ≤ word.length) :
    scanToVowel word j ≤ word.length := by
  unfold scanToVowel
  have := scanSkip_le (fun c => !(vowelsY.contains c)) word j
  omega

theorem scanToCons_le (word : List Char) (j : Nat) (h : j ≤ word.length) :
    scanToCons word j ≤ word.length := by
  unfold scanToCons
  have := scanSkip_le (fun c => vowelsY.contains c) word j
  omega

theorem scanAdd_succ_ge (p : Char → Bool) (word : List Char) (a : Nat) :
    a + scanSkip p word a ≤ (a + 1) + scanSkip p word (a + 1) := by
  conv_lhs => rw [scanSkip]
  by_cases h : a < word.length
  · rw [dif_pos h]
    by_cases hp : p (word.get ⟨a, h⟩)
    · rw [if_pos hp]
      omega
    · rw [if_neg hp]
      omega
  · rw [dif_neg h]
    omega

theorem scanAdd_mono (p : Char → Bool) (word : List Char) {a b : Nat}
    (hab : a ≤ b) : a + scanSkip p word a ≤ b + scanSkip p word b := by
  induction b, hab using Nat.le_induction with
  | base => exact Nat.le_refl _
  | succ m hm ih => exact ih.trans (scanAdd_succ_ge p word m)

theorem scanToCons_mono (word : List Char) {a b : Nat} (hab : a ≤ b) :
    scanToCons word a ≤ scanToCons word b :=
  scanAdd_mono _ word hab

theorem ccLoop_le (word : List Char) (ngs t : Nat) :
    ccLoop word ngs t ≤ ngs - t := by
  induction t using ccLoop.induct word ngs with
  | case1 t h hp ih =>
    rw [ccLoop, dif_pos h, if_pos hp]
    omega
  | case2 t h hp =>
    rw [ccLoop, dif_pos h, if_neg hp]
    omega
  | case3 t h =>
    rw [ccLoop, dif_neg h]
    omega

theorem ccLoop_pos (word : List Char) (ngs t : Nat)
    (h : 0 < ccLoop word ngs t) : t < ngs := by
  rw [ccLoop] at h
  by_cases h1 : t < word.length
  · rw [dif_pos h1] at h
    by_cases h2 : t < ngs ∧ ¬(vowelsY.contains (word.get ⟨t, h1⟩))
    · exact h2.1
    · rw [if_neg h2] at h
      omega
  · rw [dif_neg h1] at h
    omega

/-! ## Lemmas: filterIdx -/

theorem filterIdx_ge (p : α → Bool) :
    ∀ (xs : List α) (i j : Nat), j ∈ filterIdx p i xs → i ≤ j
  | [], _, _, h => by simp [filterIdx] at h
  | x :: r, i, j, h => by
    unfold filterIdx at h
    by_cases hp : p x
    · rw [if_pos hp] at h
      rcases List.mem_cons.mp h with rfl | hm
      · exact Nat.le_refl _
      · exact (Nat.le_succ i).trans (filterIdx_ge p r (i + 1) j hm)
    · rw [if_neg hp] at h
      exact (Nat.le_succ i).trans (filterIdx_ge p r (i + 1) j h)

theorem filterIdx_lt (p : α → Bool) :
    ∀ (xs : List α) (i j : Nat), j ∈ filterIdx p i xs → j < i + xs.length
  | [], _, _, h => by simp [filterIdx] at h
  | x :: r, i, j, h => by
    unfold filterIdx at h
    by_cases hp : p x
    · rw [if_pos hp] at h
      rcases List.mem_cons.mp h with rfl | hm
      · simp
      · have := filterIdx_lt p r (i + 1) j hm
        simp only [List.length_cons]
        omega
    · rw [if_neg hp] at h
      have := filterIdx_lt p r (i + 1) j h
      simp only [List.length_cons]
      omega

theorem filterIdx_pairwise (p : α → Bool) :
    ∀ (xs : List α) (i : Nat), List.Pairwise (· < ·) (filterIdx p i xs)
  | [], _ => List.Pairwise.nil
  | x :: r, i => by
    unfold filterIdx
    by_cases hp : p x
    · rw [if_pos hp]
      refine List.pairwise_cons.mpr ⟨?_, filterIdx_pairwise p r (i + 1)⟩
      intro j hj
      exact Nat.lt_of_lt_of_le (Nat.lt_succ_self i) (filterIdx_ge p r (i + 1) j hj)
    · rw [if_neg hp]
      exact filterIdx_pairwise p r (i + 1)

theorem filterIdx_eq_nil (p : α → Bool) :
    ∀ (xs : List α) (i : Nat), (∀ x ∈ xs, ¬ p x) → filterIdx p i xs = []
  | [], _, _ => rfl
  | x :: r, i, h => by
    unfold filterIdx
    rw [if_neg (h x (List.mem_cons_self _ _))]
    exact filterIdx_eq_nil p r (i + 1) fun y hy => h y (List.mem_cons_of_mem _ hy)

theorem pairwise_getD_le (l : List Nat) (hp : List.Pairwise (· < ·) l)
    {a b : Nat} (hab : a ≤ b) (hb : b < l.length) :
    l.getD a 0 ≤ l.getD b 0 := by
  rcases Nat.eq_or_lt_of_le hab with rfl | hlt
  · exact Nat.le_refl _
  · have ha : a < l.length := hlt.trans hb
    rw [List.getD_eq_getElem l 0 ha, List.getD_eq_getElem l 0 hb]
    exact Nat.le_of_lt (List.pairwise_iff_getElem.mp hp a b ha hb hlt)

theorem getD_mem (l : List Nat) (i : Nat) (h : i < l.length) :
    l.getD i 0 ∈ l := by
  rw [List.getD_eq_getElem l 0 h]
  exact List.getElem_mem h

/-! ## Lemmas: boundaries and splitting -/

theorem bdsLE_boundariesFrom :
    ∀ (vis : List Nat) (s : Nat), List.Pairwise (· < ·) vis →
      (∀ a b rest, vis = a :: b :: rest → s ≤ a + 1) →
      bdsLE s (boundariesFrom vis)
  | [], _, _, _ => trivial
  | [_], _, _, _ => trivial
  | a :: b :: rest, s, hp, hs => by
    have hab : a < b := (List.pairwise_cons.mp hp).1 b (List.mem_cons_self _ _)
    unfold boundariesFrom
    constructor
    · have := hs a b rest rfl
      by_cases h2 : 2 ≤ b - a - 1
      · rw [if_pos h2]
        omega
      · rw [if_neg h2]
        omega
    · refine bdsLE_boundariesFrom (b :: rest) _ (List.pairwise_cons.mp hp).2 ?_
      intro a' b' rest' he
      injection he with h1 h2
      subst h1
      by_cases h2 : 2 ≤ b - a - 1
      · rw [if_pos h2]
        omega
      · rw [if_neg h2]
        omega

theorem splitAtBds_flatten (xs : List Sym) :
    ∀ (bs : List Nat) (s : Nat), bdsLE s bs →
      (splitAtBds xs bs s).flatten = xs.drop s
  | [], s, _ => by simp [splitAtBds]
  | b :: rest, s, h => by
    unfold splitAtBds
    rw [List.flatten_cons, splitAtBds_flatten xs rest b h.2]
    exact pySlice_append_drop xs s b h.1

theorem splitAtBds_length (xs : List Sym) :
    ∀ (bs : List Nat) (s : Nat), (splitAtBds xs bs s).length = bs.length + 1
  | [], _ => rfl
  | b :: rest, s => by
    unfold splitAtBds
    rw [List.length_cons, splitAtBds_length xs rest b]
    simp

/-! ## Lemmas: chained position tuples -/

theorem lastD_ne_nil (d d' : α) :
    ∀ xs : List α, xs ≠ [] → lastD xs d = lastD xs d'
  | [], h => absurd rfl h
  | [_], _ => rfl
  | _ :: b :: r, _ => by
    unfold lastD
    exact lastD_ne_nil d d' (b :: r) (by simp)

theorem lastEnd_cons (a b : Nat) (r : List (Nat × Nat)) (s : Nat) :
    lastEnd ((a, b) :: r) s = lastEnd r b := by
  cases r with
  | nil => rfl
  | cons c r' =>
    show (lastD ((a, b) :: c :: r') (0, s)).2 = (lastD (c :: r') (0, b)).2
    have h1 : lastD ((a, b) :: c :: r') (0, s) = lastD (c :: r') (0, s) := rfl
    rw [h1]
    exact congrArg Prod.snd (lastD_ne_nil _ _ (c :: r') (by simp))

theorem lastEnd_append_one :
    ∀ (ts : List (Nat × Nat)) (ab : Nat × Nat) (d : Nat),
      lastEnd (ts ++ [ab]) d = ab.2
  | [], _, _ => rfl
  | (a, b) :: ts, ab, d => by
    rw [List.cons_append, lastEnd_cons, lastEnd_append_one ts ab b]

theorem chained_lastEnd_ge :
    ∀ (ts : List (Nat × Nat)) (s : Nat), chained s ts → s ≤ lastEnd ts s
  | [], _, _ => Nat.le_refl _
  | (a, b) :: r, s, h => by
    obtain ⟨_, hsb, hr⟩ := h
    rw [lastEnd_cons]
    exact hsb.trans (chained_lastEnd_ge r b hr)

theorem chained_snoc :
    ∀ (ts : List (Nat × Nat)) (s e : Nat), chained s ts → lastEnd ts s ≤ e →
      chained s (ts ++ [(lastEnd ts s, e)])
  | [], s, e, _, he => ⟨rfl, he, trivial⟩
  | (a, b) :: r, s, e, h, he => by
    obtain ⟨ha, hsb, hr⟩ := h
    rw [lastEnd_cons] at he ⊢
    exact ⟨ha, hsb, chained_snoc r b e hr he⟩

theorem chained_flatten (word : List Char) :
    ∀ (ts : List (Nat × Nat)) (s : Nat), chained s ts →
      ((ts.map (fun se => pySlice word se.1 se.2)).flatten)
        = pySlice word s (lastEnd ts s)
  | [], s, _ => by simp [lastEnd, lastD, pySlice_self]
  | (a, b) :: r, s, h => by
    obtain ⟨rfl, hsb, hr⟩ := h
    rw [List.map_cons, List.flatten_cons, chained_flatten word r b hr,
      lastEnd_cons]
    exact pySlice_append_pySlice word a b _ hsb (chained_lastEnd_ge r b hr)

/-! ## Lemmas: the structure loop reconstructs the word -/

theorem structLoop_flatten (word : List Char)
    (h0 : ∀ s ∈ sortedSfx.map (fun x => x.1),
      ¬(s.isSuffixOf word = true ∧ s.length < word.length)) :
    ∀ (i : Nat) (acc : List (List Char)),
      (structLoop word i acc).flatten = acc.flatten ++ word.drop i := by
  suffices H : ∀ (m i : Nat) (acc : List (List Char)), word.length - i ≤ m →
      (structLoop word i acc).flatten = acc.flatten ++ word.drop i by
    exact fun i acc => H word.length i acc (by omega)
  intro m
  induction m with
  | zero =>
    intro i acc hm
    rw [structLoop, dif_neg (by omega), List.drop_eq_nil_of_le (by omega)]
    simp
  | succ k ih =>
    intro i acc hm
    rw [structLoop]
    by_cases h : i < word.length
    · rw [dif_pos h]
      cases hfind : (sortedSfx.map (fun x => x.1)).find?
          (fun s => s.isSuffixOf (word.drop i) && decide (i + s.length < word.length)) with
      | some s =>
        exfalso
        have hmem := List.mem_of_find?_eq_some hfind
        have hpred := List.find?_some hfind
        simp only [Bool.and_eq_true, decide_eq_true_eq] at hpred
        obtain ⟨t, ht⟩ := isSuffixOf_ex hpred.1
        refine h0 s hmem ⟨?_, by omega⟩
        have hw : word = (word.take i ++ t) ++ s := by
          conv_lhs => rw [← List.take_append_drop i word]
          rw [ht, List.append_assoc]
        rw [hw]
        exact ex_isSuffixOf
      | none =>
        simp only [hfind]
        by_cases hv : vowelsY.contains (word.get ⟨i, h⟩)
        · rw [if_pos hv]
          by_cases hle : word.length ≤ scanToVowel word (i + 1)
          · rw [if_pos hle]
            simp
          · rw [if_neg hle]
            by_cases hcc : 2 ≤ scanToVowel word (i + 1) - i - 1
            · rw [if_pos hcc, ih _ _ (by omega), List.flatten_append]
              simp only [List.flatten_cons, List.flatten_nil, List.append_nil,
                List.append_assoc]
              rw [pySlice_append_drop word i _ (by omega)]
            · rw [if_neg hcc, ih _ _ (by omega), List.flatten_append]
              simp only [List.flatten_cons, List.flatten_nil, List.append_nil,
                List.append_assoc]
              rw [pySlice_append_drop word i _ (by omega)]
        · rw [if_neg hv]
          by_cases hvp : word.length ≤ scanToVowel word i
          · rw [if_pos hvp]
            simp
          · rw [if_neg hvp]
            by_cases hncp : word.length ≤ scanToCons word (scanToVowel word i + 1)
            · rw [if_pos hncp]
              simp
            · rw [if_neg hncp]
              have h1 : i ≤ scanToVowel word i := scanToVowel_ge word i
              have h2 : scanToVowel word i + 1 ≤ scanToCons word (scanToVowel word i + 1) :=
                scanToCons_ge word _
              rw [ih _ _ (by omega), List.flatten_append]
              simp only [List.flatten_cons, List.flatten_nil, List.append_nil,
                List.append_assoc]
              rw [pySlice_append_drop word i _ (by omega)]
    · rw [dif_neg h, List.drop_eq_nil_of_le (by omega)]
      simp

theorem structLoop_flatten_top (word : List Char) :
    (structLoop word 0 []).flatten = word := by
  by_cases hw : word.length = 0
  · rw [structLoop, dif_neg (by omega)]
    simp [List.length_eq_zero.mp hw]
  · by_cases h0 : ∀ s ∈ sortedSfx.map (fun x => x.1),
        ¬(s.isSuffixOf word = true ∧ s.length < word.length)
    · rw [structLoop_flatten word h0 0 []]
      simp
    · push_neg at h0
      obtain ⟨s, hmem, hsfx, hlen⟩ := h0
      rw [structLoop, dif_pos (by omega)]
      have hfind : ((sortedSfx.map (fun x => x.1)).find?
          (fun s => s.isSuffixOf (word.drop 0) && decide (0 + s.length < word.length))).isSome := by
        rw [List.find?_isSome]
        refine ⟨s, hmem, ?_⟩
        simp only [List.drop_zero, Nat.zero_add, Bool.and_eq_true,
          decide_eq_true_eq]
        exact ⟨hsfx, hlen⟩
      obtain ⟨s', hs'⟩ := Option.isSome_iff_exists.mp hfind
      rw [hs']
      simp

/-! ## Lemmas: the vowel-position fallback loop -/

theorem nextTuple_fst (word : List Char) (vpos : List Nat) (vpsm1 nsp i : Nat)
    (even : List (Nat × Nat)) :
    (nextTuple word vpos vpsm1 nsp i even).1 = lastEnd even 0 := by
  cases even <;> rfl

theorem endAt_le (word : List Char) (vpos : List Nat) (vps i : Nat)
    (hvp : i + vps < vpos.length) (hvps : 1 ≤ vps)
    (hlt : ∀ x ∈ vpos, x < word.length) :
    endAt word vpos vps i ≤ word.length := by
  have hg1 : vpos.getD (i + vps) 0 < word.length :=
    hlt _ (getD_mem vpos (i + vps) hvp)
  have ha1 : vpos.getD (i + vps - 1) 0 < word.length :=
    hlt _ (getD_mem vpos (i + vps - 1) (by omega))
  have hep0 : scanToCons word (vpos.getD (i + vps - 1) 0 + 1) ≤ word.length :=
    scanToCons_le word _ (by omega)
  have hccle := ccLoop_le word (vpos.getD (i + vps) 0)
    (scanToCons word (vpos.getD (i + vps - 1) 0 + 1))
  unfold endAt
  by_cases hcc : 2 ≤ ccLoop word (vpos.getD (i + vps) 0)
      (scanToCons word (vpos.getD (i + vps - 1) 0 + 1))
  · rw [if_pos hcc]
    have hpos := ccLoop_pos word (vpos.getD (i + vps) 0)
      (scanToCons word (vpos.getD (i + vps - 1) 0 + 1)) (by omega)
    omega
  · rw [if_neg hcc]
    exact hep0

theorem endAt_mono (word : List Char) (vpos : List Nat) (vps i : Nat)
    (hsort : List.Pairwise (· < ·) vpos) (hvps : 1 ≤ vps)
    (h2 : i + 2 * vps < vpos.length) :
    endAt word vpos vps i ≤ endAt word vpos vps (i + vps) := by
  have h1 : i + vps < vpos.length := by omega
  have hg1a2 : vpos.getD (i + vps) 0 ≤ vpos.getD (i + vps + vps - 1) 0 :=
    pairwise_getD_le vpos hsort (by omega) (by omega)
  have ha1a2 : vpos.getD (i + vps - 1) 0 ≤ vpos.getD (i + vps + vps - 1) 0 :=
    pairwise_getD_le vpos hsort (by omega) (by omega)
  have hep' : vpos.getD (i + vps + vps - 1) 0 + 1
      ≤ scanToCons word (vpos.getD (i + vps + vps - 1) 0 + 1) :=
    scanToCons_ge word _
  have hE' : scanToCons word (vpos.getD (i + vps + vps - 1) 0 + 1)
      ≤ endAt word vpos vps (i + vps) := by
    unfold endAt
    by_cases hcc : 2 ≤ ccLoop word (vpos.getD (i + vps + vps) 0)
        (scanToCons word (vpos.getD (i + vps + vps - 1) 0 + 1))
    · rw [if_pos hcc]
      omega
    · rw [if_neg hcc]
  conv_lhs => unfold endAt
  by_cases hcc : 2 ≤ ccLoop word (vpos.getD (i + vps) 0)
      (scanToCons word (vpos.getD (i + vps - 1) 0 + 1))
  · rw [if_pos hcc]
    have hpos := ccLoop_pos word (vpos.getD (i + vps) 0)
      (scanToCons word (vpos.getD (i + vps - 1) 0 + 1)) (by omega)
    have hccle := ccLoop_le word (vpos.getD (i + vps) 0)
      (scanToCons word (vpos.getD (i + vps - 1) 0 + 1))
    omega
  · rw [if_neg hcc]
    have hmono : scanToCons word (vpos.getD (i + vps - 1) 0 + 1)
        ≤ scanToCons word (vpos.getD (i + vps + vps - 1) 0 + 1) :=
      scanToCons_mono word (by omega)
    omega

theorem evenLoop_spec (word : List Char) (vpos : List Nat)
    (hsort : List.Pairwise (· < ·) vpos)
    (hlt : ∀ x ∈ vpos, x < word.length) (vpsm1 nsp : Nat) :
    ∀ (m i : Nat) (even : List (Nat × Nat)), vpos.length - i ≤ m →
      chained 0 even →
      (even ≠ [] → lastEnd even 0 ≤ word.length) →
      (even ≠ [] → i + (vpsm1 + 1) < vpos.length →
        lastEnd even 0 ≤ endAt word vpos (vpsm1 + 1) i) →
      (vpos.length ≤ i → even ≠ [] → lastEnd even 0 = word.length) →
      chained 0 (evenLoop word vpos vpsm1 nsp i even)
      ∧ ((even ≠ [] ∨ i < vpos.length) →
          evenLoop word vpos vpsm1 nsp i even ≠ []
          ∧ lastEnd (evenLoop word vpos vpsm1 nsp i even) 0 = word.length) := by
  intro m
  induction m with
  | zero =>
    intro i even hm hch h3 h4 h5
    rw [evenLoop, dif_neg (by omega)]
    refine ⟨hch, ?_⟩
    rintro (hne | hlt2)
    · exact ⟨hne, h5 (by omega) hne⟩
    · omega
  | succ k ih =>
    intro i even hm hch h3 h4 h5
    by_cases h : i < vpos.length
    · rw [evenLoop, dif_pos h]
      have htuple : nextTuple word vpos vpsm1 nsp i even
          = (lastEnd even 0, (nextTuple word vpos vpsm1 nsp i even).2) := by
        rw [← nextTuple_fst word vpos vpsm1 nsp i even]
      have hle_e : lastEnd even 0 ≤ (nextTuple word vpos vpsm1 nsp i even).2 := by
        cases heven : even with
        | nil => simp [lastEnd, lastD]
        | cons x r =>
          rw [← heven]
          have hne : even ≠ [] := by
            rw [heven]
            simp
          unfold nextTuple
          by_cases hcond : vpos.length ≤ i + (vpsm1 + 1)
              ∨ (even.length : Int) = (nsp : Int) - 1
          · rw [if_pos hcond]
            exact h3 hne
          · rw [if_neg hcond]
            push_neg at hcond
            exact h4 hne (by omega)
      have hch' : chained 0 (even ++ [nextTuple word vpos vpsm1 nsp i even]) := by
        rw [htuple]
        exact chained_snoc even 0 _ hch hle_e
      have hlast' : lastEnd (even ++ [nextTuple word vpos vpsm1 nsp i even]) 0
          = (nextTuple word vpos vpsm1 nsp i even).2 :=
        lastEnd_append_one even _ 0
      by_cases hb : (even ++ [nextTuple word vpos vpsm1 nsp i even]).length = nsp
      · rw [if_pos hb]
        refine ⟨hch', fun _ => ⟨by simp, ?_⟩⟩
        rw [hlast']
        unfold nextTuple
        rw [if_pos]
        right
        have : even.length + 1 = nsp := by
          simpa using hb
        omega
      · rw [if_neg hb]
        have hsnd_le : (nextTuple word vpos vpsm1 nsp i even).2 ≤ word.length := by
          unfold nextTuple
          by_cases hcond : vpos.length ≤ i + (vpsm1 + 1)
              ∨ (even.length : Int) = (nsp : Int) - 1
          · rw [if_pos hcond]
          · rw [if_neg hcond]
            push_neg at hcond
            exact endAt_le word vpos (vpsm1 + 1) i (by omega) (by omega) hlt
        have hres := ih (i + (vpsm1 + 1))
          (even ++ [nextTuple word vpos vpsm1 nsp i even]) (by omega) hch'
          (fun _ => by
            rw [hlast']
            exact hsnd_le)
          (fun _ hlt2 => by
            rw [hlast']
            unfold nextTuple
            by_cases hcond : vpos.length ≤ i + (vpsm1 + 1)
                ∨ (even.length : Int) = (nsp : Int) - 1
            · exfalso
              rcases hcond with hc1 | hc2
              · omega
              · have : even.length + 1 = nsp := by omega
                exact hb (by simpa using this)
            · rw [if_neg hcond]
              exact endAt_mono word vpos (vpsm1 + 1) i hsort (by omega) (by omega))
          (fun hge _ => by
            rw [hlast']
            unfold nextTuple
            rw [if_pos (Or.inl (by omega))])
        refine ⟨hres.1, fun _ => hres.2 (Or.inl (by simp))⟩
    · rw [evenLoop, dif_neg h]
      refine ⟨hch, ?_⟩
      rintro (hne | hlt2)
      · exact ⟨hne, h5 (by omega) hne⟩
      · omega

theorem evenSplitResult_flatten (word : List Char) (nsp : Nat)
    (vpos : List Nat) (hsort : List.Pairwise (· < ·) vpos)
    (hlt : ∀ x ∈ vpos, x < word.length) (hne : vpos ≠ []) :
    (evenSplitResult word nsp vpos).flatten = word := by
  have hlen : 0 < vpos.length := List.length_pos.mpr hne
  obtain ⟨hch, hprop⟩ := evenLoop_spec word vpos hsort hlt
    ((if vpos.length / nsp < 1 then 1 else vpos.length / nsp) - 1) nsp
    vpos.length 0 [] (by omega) trivial (by simp) (by simp) (by omega)
  obtain ⟨hne2, hlast⟩ := hprop (Or.inr hlen)
  set even := evenLoop word vpos
    ((if vpos.length / nsp < 1 then 1 else vpos.length / nsp) - 1) nsp 0 []
    with heven
  have hflat0 : ((even.map (fun se => pySlice word se.1 se.2)).flatten) = word := by
    rw [chained_flatten word even 0 hch, hlast, pySlice_full]
    exact Nat.le_refl _
  simp only [evenSplitResult]
  rw [← heven]
  have hcond : ¬(even ≠ [] ∧ (lastD even (0, 0)).2 < word.length) := by
    rintro ⟨_, hlt3⟩
    have : lastEnd even 0 = word.length := hlast
    unfold lastEnd at this
    omega
  rw [if_neg hcond]
  by_cases hfin : (even.map (fun se => pySlice word se.1 se.2)).length ≠ nsp
  · rw [if_pos hfin]
    exact flatten_evenChunks word nsp (word.length / nsp)
  · rw [if_neg hfin]
    exact hflat0

theorem evenSplitResult_length (word : List Char) (nsp : Nat)
    (vpos : List Nat) (hnsp : 1 ≤ nsp) :
    (evenSplitResult word nsp vpos).length = nsp := by
  simp only [evenSplitResult]
  by_cases hcond : evenLoop word vpos
      ((if vpos.length / nsp < 1 then 1 else vpos.length / nsp) - 1) nsp 0 [] ≠ []
      ∧ (lastD (evenLoop word vpos
          ((if vpos.length / nsp < 1 then 1 else vpos.length / nsp) - 1) nsp 0 [])
          (0, 0)).2 < word.length
  · rw [if_pos hcond]
    by_cases hfin : (modifyLast
        (· ++ word.drop ((lastD (evenLoop word vpos
          ((if vpos.length / nsp < 1 then 1 else vpos.length / nsp) - 1) nsp 0 [])
          (0, 0)).2))
        ((evenLoop word vpos
          ((if vpos.length / nsp < 1 then 1 else vpos.length / nsp) - 1) nsp 0 []).map
          (fun se => pySlice word se.1 se.2))).length ≠ nsp
    · rw [if_pos hfin, length_evenChunks]
      omega
    · rw [if_neg hfin]
      omega
  · rw [if_neg hcond]
    by_cases hfin : ((evenLoop word vpos
        ((if vpos.length / nsp < 1 then 1 else vpos.length / nsp) - 1) nsp 0 []).map
        (fun se => pySlice word se.1 se.2)).length ≠ nsp
    · rw [if_pos hfin, length_evenChunks]
      omega
    · rw [if_neg hfin]
      omega

/-! ## Lemmas: slice casts -/

theorem pySlice_clamp (xs : List α) (a b : Nat) :
    pySlice xs (min a xs.length) (min b xs.length) = pySlice xs a b := by
  unfold pySlice
  have ht : xs.take (min b xs.length) = xs.take b := by
    rcases Nat.le_total b xs.length with h | h
    · rw [Nat.min_eq_left h]
    · rw [Nat.min_eq_right h, List.take_of_length_le h,
        List.take_of_length_le (Nat.le_refl _)]
  rw [ht]
  rcases Nat.le_total a xs.length with h | h
  · rw [Nat.min_eq_left h]
  · rw [Nat.min_eq_right h]
    rw [List.drop_eq_nil_of_le (by simp), List.drop_eq_nil_of_le (by simp; omega)]

theorem pySliceI_natCast (xs : List α) (a b : Nat) :
    pySliceI xs (a : Int) (b : Int) = pySlice xs a b :=
  (pySliceI_nonneg xs a b).trans (pySlice_clamp xs a b)

/-! ## Lemmas: the er, ex and ture branches -/

theorem erBranch_lengths (hyph : List Char → List (List Char))
    (word : List Char) (ph : List Sym) :
    (erBranch hyph word ph).1.length = (erBranch hyph word ph).2.length := by
  simp only [erBranch, length_evenChunks, List.length_append, List.length_cons,
    List.length_nil]
  omega

theorem erBranch_groups_flatten (hyph : List Char → List (List Char))
    (word : List Char) (ph : List Sym) :
    (erBranch hyph word ph).1.flatten = ph := by
  simp only [erBranch]
  exact flatten_evenChunks ph _ _

theorem erBranch_texts_flatten (hyph : List Char → List (List Char))
    (word : List Char) (ph : List Sym)
    (hh : ∀ t, (hyph t).flatten = t)
    (hsfx : "er".toList.isSuffixOf word = true) :
    (erBranch hyph word ph).2.flatten = word := by
  simp only [erBranch]
  rw [List.flatten_append, hh]
  simp only [List.flatten_cons, List.flatten_nil, List.append_nil]
  obtain ⟨t, rfl⟩ := isSuffixOf_ex hsfx
  have hlen : (t ++ "er".toList).length - 2 = t.length := by simp
  rw [hlen, List.take_left]

theorem exBranch_lengths (hyph : List Char → List (List Char))
    (word : List Char) (ph : List Sym) :
    (exBranch hyph word ph).1.length = (exBranch hyph word ph).2.length := by
  simp only [exBranch]
  by_cases hr : hyph (word.drop 2) ≠ []
  · rw [if_pos hr]
    have h1 : 1 ≤ (hyph (word.drop 2)).length := List.length_pos.mpr hr
    simp only [length_evenChunks, List.length_cons]
    omega
  · rw [if_neg hr]
    push_neg at hr
    simp [hr]

theorem exBranch_groups_flatten (hyph : List Char → List (List Char))
    (word : List Char) (ph : List Sym) (hne : hyph (word.drop 2) ≠ []) :
    (exBranch hyph word ph).1.flatten = ph := by
  simp only [exBranch]
  rw [if_pos hne]
  simp only [List.flatten_cons]
  rw [flatten_evenChunks]
  exact List.take_append_drop _ ph

theorem exBranch_texts_flatten (hyph : List Char → List (List Char))
    (word : List Char) (ph : List Sym)
    (hh : ∀ t, (hyph t).flatten = t)
    (hpfx : "ex".toList.isPrefixOf word = true) :
    (exBranch hyph word ph).2.flatten = word := by
  simp only [exBranch, List.flatten_cons]
  rw [hh]
  obtain ⟨t, rfl⟩ := isPrefixOf_ex hpfx
  rfl

theorem tureBranch_lengths (hyph : List Char → List (List Char))
    (word : List Char) (ph : List Sym) :
    (tureBranch hyph word ph).1.length = (tureBranch hyph word ph).2.length := by
  simp only [tureBranch]
  rw [List.length_append, List.length_append, List.length_map, List.length_range]
  rfl

theorem tureBranch_texts_flatten (hyph : List Char → List (List Char))
    (word : List Char) (ph : List Sym)
    (hh : ∀ t, (hyph t).flatten = t)
    (hsfx : "ture".toList.isSuffixOf word = true) :
    (tureBranch hyph word ph).2.flatten = word := by
  simp only [tureBranch]
  rw [List.flatten_append, hh]
  simp only [List.flatten_cons, List.flatten_nil, List.append_nil]
  obtain ⟨t, rfl⟩ := isSuffixOf_ex hsfx
  have hlen : (t ++ "ture".toList).length - 4 = t.length := by simp
  rw [hlen, List.take_left]

theorem fdiv_negOne (k : Nat) (hk : 1 ≤ k) :
    Int.fdiv (-1) (k : Int) = -1 := by
  cases k with
  | zero => omega
  | succ k' =>
    show Int.fdiv (Int.negSucc 0) (Int.ofNat (k' + 1)) = Int.negSucc 0
    simp [Int.fdiv, Nat.zero_div]

theorem tureBranch_groups_flatten (hyph : List Char → List (List Char))
    (word : List Char) (ph : List Sym) (hph : ph ≠ [])
    (hk : hyph (word.take (word.length - 4)) ≠ []) :
    (tureBranch hyph word ph).1.flatten = ph := by
  simp only [tureBranch]
  set k := (hyph (word.take (word.length - 4))).length with hkdef
  have hk1 : 1 ≤ k := List.length_pos.mpr hk
  have hn1 : 1 ≤ ph.length := List.length_pos.mpr hph
  rw [List.flatten_append]
  simp only [List.flatten_cons, List.flatten_nil, List.append_nil]
  by_cases hn2 : 2 ≤ ph.length
  · -- the stress index is non-negative: everything is a plain Nat slice chain
    set p := (ph.length - 2) / k with hpdef
    have hfd : Int.fdiv ((ph.length : Int) - 2) (k : Int) = (p : Int) := by
      rw [show ((ph.length : Int) - 2) = ((ph.length - 2 : Nat) : Int) by omega,
        hpdef]
      exact (Int.ofNat_fdiv _ _).symm
    have hlast : pySliceI ph ((ph.length : Int) - 2) (ph.length : Int)
        = pySlice ph (ph.length - 2) ph.length := by
      rw [show ((ph.length : Int) - 2) = ((ph.length - 2 : Nat) : Int) by omega]
      exact pySliceI_natCast ph _ _
    have hsplit : List.range k = List.range (k - 1) ++ [k - 1] := by
      rw [← List.range_succ]
      congr 1
      omega
    rw [hsplit, List.map_append, List.flatten_append]
    have hmap1 : (List.range (k - 1)).map (fun i : Nat =>
        pySliceI ph ((i : Int) * Int.fdiv ((ph.length : Int) - 2) (k : Int))
          (if (i : Int) < (k : Int) - 1
           then ((i : Int) + 1) * Int.fdiv ((ph.length : Int) - 2) (k : Int)
           else (ph.length : Int) - 2))
        = (List.range (k - 1)).map (fun i => pySlice ph (i * p) ((i + 1) * p)) := by
      apply List.map_congr_left
      intro i hi
      have hik : i < k - 1 := List.mem_range.mp hi
      rw [if_pos (by omega : (i : Int) < (k : Int) - 1), hfd]
      rw [show ((i : Int) * (p : Int)) = ((i * p : Nat) : Int) by push_cast; ring,
        show (((i : Int) + 1) * (p : Int)) = (((i + 1) * p : Nat) : Int) by push_cast; ring]
      exact pySliceI_natCast ph _ _
    rw [hmap1, flatten_range_map_pySlice]
    simp only [List.map_cons, List.map_nil, List.flatten_cons, List.flatten_nil,
      List.append_nil]
    rw [if_neg (by omega : ¬ (((k - 1 : Nat) : Int) < (k : Int) - 1)), hfd, hlast]
    rw [show ((k - 1 : Nat) : Int) * (p : Int) = (((k - 1) * p : Nat) : Int) by
      push_cast; ring]
    rw [show ((ph.length : Int) - 2) = ((ph.length - 2 : Nat) : Int) by omega]
    rw [pySliceI_natCast ph _ _]
    have hbound : (k - 1) * p ≤ ph.length - 2 := by
      have h1 : p * k ≤ ph.length - 2 := Nat.div_mul_le_self _ _
      have h2 : (k - 1) * p ≤ p * k := by
        rw [Nat.mul_comm]
        exact Nat.mul_le_mul_left p (by omega)
      omega
    rw [show ph.take ((k - 1) * p) = pySlice ph 0 ((k - 1) * p) from
      (pySlice_zero ph _).symm, List.append_assoc,
      pySlice_append_pySlice ph ((k - 1) * p) (ph.length - 2) ph.length
        hbound (by omega),
      pySlice_append_pySlice ph 0 ((k - 1) * p) ph.length (by omega)
        (by
          have h1 : p * k ≤ ph.length - 2 := Nat.div_mul_le_self _ _
          have h2 : (k - 1) * p ≤ p * k := by
            rw [Nat.mul_comm]
            exact Nat.mul_le_mul_left p (by omega)
          omega)]
    exact pySlice_full ph ph.length (Nat.le_refl _)
  · -- a single phoneme: every prefix slice is empty, the final slice is all
    have hn : ph.length = 1 := by omega
    have hfd : Int.fdiv ((ph.length : Int) - 2) (k : Int) = -1 := by
      rw [show ((ph.length : Int) - 2) = -1 by omega]
      exact fdiv_negOne k hk1
    have hmapnil : ((List.range k).map (fun i : Nat =>
        pySliceI ph ((i : Int) * Int.fdiv ((ph.length : Int) - 2) (k : Int))
          (if (i : Int) < (k : Int) - 1
           then ((i : Int) + 1) * Int.fdiv ((ph.length : Int) - 2) (k : Int)
           else (ph.length : Int) - 2))).flatten = [] := by
      rw [List.flatten_eq_nil_iff]
      intro l hl
      obtain ⟨i, hi, rfl⟩ := List.mem_map.mp hl
      rw [hfd]
      have hend0 : ∀ e : Int, pyIdx ph.length e = 0 → pySliceI ph
          ((i : Int) * (-1)) e = [] := by
        intro e he
        unfold pySliceI
        rw [he]
        simp
      by_cases hik : (i : Int) < (k : Int) - 1
      · rw [if_pos hik]
        apply hend0
        unfold pyIdx
        have h0 : (0 : Int) ≤ (i : Int) := Int.natCast_nonneg i
        have he1 : ((i : Int) + 1) * (-1) < 0 := by nlinarith
        rw [if_pos he1]
        have hle : (ph.length : Int) + ((i : Int) + 1) * (-1) ≤ 0 := by
          rw [hn]
          push_cast
          nlinarith
        omega
      · rw [if_neg hik]
        apply hend0
        unfold pyIdx
        rw [if_pos (by omega : ((ph.length : Int) - 2) < 0)]
        omega
    rw [hmapnil]
    simp only [List.map_cons, List.map_nil, List.flatten_cons, List.flatten_nil,
      List.append_nil, List.nil_append]
    unfold pySliceI pyIdx
    rw [if_pos (by omega : ((ph.length : Int) - 2) < 0),
      if_neg (by omega : ¬ ((ph.length : Int) < 0))]
    have h1 : ((ph.length : Int) + ((ph.length : Int) - 2)).toNat = 0 := by omega
    have h2 : (ph.length : Int).toNat = ph.length := by omega
    rw [h1, h2]
    simp

/-! ## Lemmas: the affix-structure section -/

theorem distGo_length (rem : List Sym) (total : Nat) :
    ∀ (parts : List (List Char)) (cur : Nat),
      (distGo rem total parts cur).1.length = parts.length
  | [], _ => rfl
  | p :: rest, cur => by
    simp only [distGo, List.length_cons]
    rw [distGo_length rem total rest _]

theorem middleOf_length (hyph : List Char → List (List Char))
    (rw2 : List Char) (rp : List Sym) :
    (middleOf hyph rw2 rp).1.length = (middleOf hyph rw2 rp).2.length := by
  simp only [middleOf]
  by_cases hc : hyph rw2 ≠ [] ∧ rp ≠ []
  · rw [if_pos hc]
    by_cases hd : (distGo rp (((hyph rw2).map List.length).sum) (hyph rw2) 0).2
        < rp.length
    · rw [if_pos hd, length_modifyLast, distGo_length]
    · rw [if_neg hd, distGo_length]
  · rw [if_neg hc]
    rfl

theorem middleOf_texts_flatten (hyph : List Char → List (List Char))
    (rw2 : List Char) (rp : List Sym) (hh : ∀ t, (hyph t).flatten = t) :
    (middleOf hyph rw2 rp).2.flatten = rw2 := by
  simp only [middleOf]
  by_cases hc : hyph rw2 ≠ [] ∧ rp ≠ []
  · rw [if_pos hc]
    exact hh rw2
  · rw [if_neg hc]
    simp

theorem findSfx_some (word : List Char) (su : List Char × List Sym)
    (h : findSfx word = some su) :
    su.1.isSuffixOf word = true ∧ su.1.length < word.length := by
  have hp := List.find?_some h
  simpa using hp

theorem findPfx_some (rw : List Char) (pu : List Char × List Sym)
    (h : findPfx rw = some pu) :
    pu.1.isPrefixOf rw = true ∧ pu.1.length < rw.length := by
  have hp := List.find?_some h
  simpa using hp

theorem take_sub_of_isSuffixOf (word s : List Char)
    (hs : s.isSuffixOf word = true) :
    word.take (word.length - s.length) ++ s = word := by
  obtain ⟨t, rfl⟩ := isSuffixOf_ex hs
  have hlen : (t ++ s).length - s.length = t.length := by simp
  rw [hlen, List.take_left]

theorem drop_len_of_isPrefixOf (rw p : List Char)
    (hp : p.isPrefixOf rw = true) :
    p ++ rw.drop p.length = rw := by
  obtain ⟨t, rfl⟩ := isPrefixOf_ex hp
  rw [List.drop_left]

theorem affixSection_some (hyph : List Char → List (List Char))
    (word : List Char) (ph : List Sym) (vi : List Nat)
    (g : List (List Sym)) (s : List (List Char))
    (ha : affixSection hyph word ph vi = some (g, s)) :
    g.length = s.length
    ∧ ((∀ t, (hyph t).flatten = t) → s.flatten = word) := by
  simp only [affixSection] at ha
  cases hsf : findSfx word with
  | some su =>
    simp only [hsf] at ha
    have hsfx := findSfx_some word su hsf
    have hw : word.take (word.length - su.1.length) ++ su.1 = word :=
      take_sub_of_isSuffixOf word su.1 hsfx.1
    cases hpf : findPfx (word.take (word.length - su.1.length)) with
    | some pu =>
      simp only [hpf] at ha
      have hpfx := findPfx_some _ pu hpf
      have hrw1 : pu.1 ++ (word.take (word.length - su.1.length)).drop pu.1.length
          = word.take (word.length - su.1.length) :=
        drop_len_of_isPrefixOf _ pu.1 hpfx.1
      by_cases hrw2 : (word.take (word.length - su.1.length)).drop pu.1.length = []
      · rw [if_neg (by simp [hrw2])] at ha
        cases ha
      · rw [if_pos ⟨Or.inl (by simp), hrw2⟩] at ha
        injection ha with hpair
        have hg := congrArg Prod.fst hpair
        have hsyl := congrArg Prod.snd hpair
        simp only at hg hsyl
        subst hg hsyl
        constructor
        · simp only [List.length_append, List.length_cons, List.length_nil,
            middleOf_length]
        · intro hh
          simp only [List.flatten_append, List.flatten_cons, List.flatten_nil,
            List.append_nil, middleOf_texts_flatten _ _ _ hh]
          rw [hrw1, hw]
    | none =>
      simp only [hpf] at ha
      cases hrw1shape : word.take (word.length - su.1.length) with
      | nil =>
        simp only [hrw1shape] at ha
        rw [if_neg (by simp)] at ha
        cases ha
      | cons c cs =>
        simp only [hrw1shape] at ha
        try simp only [] at ha
        by_cases hv : vowelsNoY.contains c ∧ 1 < (c :: cs).length
            ∧ ¬(vowelsNoY.contains ((c :: cs).getD 1 ' '))
        · rw [if_pos hv] at ha
          by_cases hcs : (cs : List Char) = []
          · rw [if_neg (by simp [hcs])] at ha
            cases ha
          · rw [if_pos ⟨Or.inl (by simp), by simpa using hcs⟩] at ha
            simp only [] at ha
            injection ha with hpair
            have hg := congrArg Prod.fst hpair
            have hsyl := congrArg Prod.snd hpair
            simp only at hg hsyl
            subst hg hsyl
            constructor
            · simp only [List.length_append, List.length_cons, List.length_nil,
                middleOf_length]
            · intro hh
              simp only [List.flatten_append, List.flatten_cons, List.flatten_nil,
                List.append_nil, List.nil_append, middleOf_texts_flatten _ _ _ hh]
              rw [← hw, hrw1shape]
              simp
        · rw [if_neg hv] at ha
          rw [if_pos ⟨Or.inl (by simp), by simp⟩] at ha
          simp only [] at ha
          injection ha with hpair
          have hg := congrArg Prod.fst hpair
          have hsyl := congrArg Prod.snd hpair
          simp only at hg hsyl
          subst hg hsyl
          constructor
          · simp only [List.length_append, List.length_cons, List.length_nil,
              List.nil_append, middleOf_length]
          · intro hh
            simp only [List.flatten_append, List.flatten_cons, List.flatten_nil,
              List.append_nil, List.nil_append, middleOf_texts_flatten _ _ _ hh]
            rw [← hw, hrw1shape]
  | none =>
    simp only [hsf] at ha
    cases hpf : findPfx word with
    | some pu =>
      simp only [hpf] at ha
      have hpfx := findPfx_some _ pu hpf
      have hrw1 : pu.1 ++ word.drop pu.1.length = word :=
        drop_len_of_isPrefixOf _ pu.1 hpfx.1
      by_cases hrw2 : word.drop pu.1.length = []
      · rw [if_neg (by simp [hrw2])] at ha
        cases ha
      · rw [if_pos ⟨Or.inr (by simp), hrw2⟩] at ha
        injection ha with hpair
        have hg := congrArg Prod.fst hpair
        have hsyl := congrArg Prod.snd hpair
        simp only at hg hsyl
        subst hg hsyl
        constructor
        · simp only [List.length_append, List.length_cons, List.length_nil,
            middleOf_length]
        · intro hh
          simp only [List.flatten_append, List.flatten_cons, List.flatten_nil,
            List.append_nil, middleOf_texts_flatten _ _ _ hh]
          exact hrw1
    | none =>
      simp only [hpf] at ha
      cases word with
      | nil =>
        rw [if_neg (by simp)] at ha
        cases ha
      | cons c cs =>
        simp only [] at ha
        by_cases hv : vowelsNoY.contains c ∧ 1 < (c :: cs).length
            ∧ ¬(vowelsNoY.contains ((c :: cs).getD 1 ' '))
        · rw [if_pos hv] at ha
          by_cases hcs : (cs : List Char) = []
          · rw [if_neg (by simp [hcs])] at ha
            cases ha
          · rw [if_pos ⟨Or.inr (by simp), by simpa using hcs⟩] at ha
            simp only [] at ha
            injection ha with hpair
            have hg := congrArg Prod.fst hpair
            have hsyl := congrArg Prod.snd hpair
            simp only at hg hsyl
            subst hg hsyl
            constructor
            · simp only [List.length_append, List.length_cons, List.length_nil,
                middleOf_length]
            · intro hh
              simp only [List.flatten_append, List.flatten_cons, List.flatten_nil,
                List.append_nil, List.nil_append, middleOf_texts_flatten _ _ _ hh]
              simp
        · rw [if_neg hv] at ha
          rw [if_neg (by simp)] at ha
          cases ha

/-! ## Lemmas: the boundary stage -/

theorem boundaryGroups_flatten (cmu : List Sym) :
    (boundaryGroups cmu).flatten = cmu.map mapPhoneme := by
  unfold boundaryGroups
  rw [← List.map_flatten]
  rw [splitAtBds_flatten cmu _ 0
    (bdsLE_boundariesFrom _ 0 (filterIdx_pairwise _ _ _)
      (fun _ _ _ _ => Nat.zero_le _)), List.drop_zero]

theorem boundaryGroups_length_pos (cmu : List Sym) :
    1 ≤ (boundaryGroups cmu).length := by
  unfold boundaryGroups
  rw [List.length_map, splitAtBds_length]
  omega

/-! ## Lemmas: table facts -/

theorem forced_facts : ∀ p ∈ forced_patterns, p.2 ≠ [] ∧ p.2.flatten = p.1 := by
  decide

theorem forced_keys_vowel :
    ∀ p ∈ forced_patterns, ∃ c ∈ p.1, c ∈ vowelsY := by
  decide

theorem sortedSfx_vowel : ∀ p ∈ sortedSfx, ∃ c ∈ p.1, c ∈ vowelsY := by
  decide

theorem sortedPfx_vowel : ∀ p ∈ sortedPfx, ∃ c ∈ p.1, c ∈ vowelsY := by
  decide

/-! ## The control-flow characterization of `split_syllables` -/

theorem split_characterize (dct : List Char → Option (List Sym))
    (hyph : List Char → List (List Char)) (w0 : List Char)
    (g : List (List Sym)) (s : List (List Char))
    (hs : split_syllables dct hyph w0 = some (g, s)) :
    ∃ ph, get_phonetic dct (lowerStr w0) = some ph ∧ ph ≠ [] ∧
      ((∃ pat, alookup (lowerStr w0) forced_patterns = some pat
          ∧ g = forcedAssign pat ph ∧ s = pat)
       ∨ (alookup (lowerStr w0) forced_patterns = none ∧
          ∃ cmu, dct (lowerStr w0) = some cmu ∧
           ((erGuard (lowerStr w0) cmu (filterIdx isCmuVowel 0 cmu)
               ∧ (g, s) = erBranch hyph (lowerStr w0) ph)
            ∨ (¬ erGuard (lowerStr w0) cmu (filterIdx isCmuVowel 0 cmu) ∧
               ((exGuard (lowerStr w0) ∧ (g, s) = exBranch hyph (lowerStr w0) ph)
                ∨ (¬ exGuard (lowerStr w0) ∧
                   ((tureGuard (lowerStr w0)
                       ∧ (g, s) = tureBranch hyph (lowerStr w0) ph)
                    ∨ (¬ tureGuard (lowerStr w0) ∧
                       (affixSection hyph (lowerStr w0) ph
                           (filterIdx isCmuVowel 0 cmu) = some (g, s)
                        ∨ (affixSection hyph (lowerStr w0) ph
                             (filterIdx isCmuVowel 0 cmu) = none ∧
                           ((g = boundaryGroups cmu ∧ s.length = g.length
                              ∧ (s = hyph (lowerStr w0)
                                 ∨ s = structLoop (lowerStr w0) 0 []))
                            ∨ (g = [ph] ∧ s = [lowerStr w0])
                            ∨ (g = boundaryGroups cmu
                               ∧ s = evenSplitResult (lowerStr w0) g.length
                                   (filterIdx (fun c => vowelsY.contains c) 0
                                     (lowerStr w0))
                               ∧ filterIdx (fun c => vowelsY.contains c) 0
                                   (lowerStr w0) ≠ [])))))))))))) := by
  simp only [split_syllables] at hs
  cases hgp : get_phonetic dct (lowerStr w0) with
  | none => simp [hgp] at hs
  | some ph =>
    simp only [hgp] at hs
    by_cases hph : ph = []
    · rw [if_pos hph] at hs
      cases hs
    · rw [if_neg hph] at hs
      refine ⟨ph, rfl, hph, ?_⟩
      cases hfp : alookup (lowerStr w0) forced_patterns with
      | some pat =>
        simp only [hfp] at hs
        injection hs with hpair
        refine Or.inl ⟨pat, rfl, ?_, ?_⟩
        · exact (congrArg Prod.fst hpair).symm
        · exact (congrArg Prod.snd hpair).symm
      | none =>
        simp only [hfp] at hs
        refine Or.inr ⟨rfl, ?_⟩
        cases hdw : dct (lowerStr w0) with
        | none => simp [hdw] at hs
        | some cmu =>
          simp only [hdw] at hs
          refine ⟨cmu, rfl, ?_⟩
          by_cases her : erGuard (lowerStr w0) cmu (filterIdx isCmuVowel 0 cmu)
          · rw [if_pos her] at hs
            injection hs with hpair
            exact Or.inl ⟨her, hpair.symm⟩
          · rw [if_neg her] at hs
            refine Or.inr ⟨her, ?_⟩
            by_cases hex : exGuard (lowerStr w0)
            · rw [if_pos hex] at hs
              injection hs with hpair
              exact Or.inl ⟨hex, hpair.symm⟩
            · rw [if_neg hex] at hs
              refine Or.inr ⟨hex, ?_⟩
              by_cases htu : tureGuard (lowerStr w0)
              · rw [if_pos htu] at hs
                injection hs with hpair
                exact Or.inl ⟨htu, hpair.symm⟩
              · rw [if_neg htu] at hs
                refine Or.inr ⟨htu, ?_⟩
                cases haf : affixSection hyph (lowerStr w0) ph
                    (filterIdx isCmuVowel 0 cmu) with
                | some res =>
                  simp only [haf] at hs
                  injection hs with hpair
                  exact Or.inl (by rw [hpair])
                | none =>
                  simp only [haf] at hs
                  refine Or.inr ⟨rfl, ?_⟩
                  by_cases hf : (boundaryGroups cmu).length
                      = (hyph (lowerStr w0)).length
                  · rw [if_pos hf] at hs
                    injection hs with hpair
                    have hg := (congrArg Prod.fst hpair).symm
                    have hsy := (congrArg Prod.snd hpair).symm
                    simp only at hg hsy
                    refine Or.inl ⟨hg, ?_, Or.inl hsy⟩
                    rw [hg, hsy]
                    exact hf.symm
                  · rw [if_neg hf] at hs
                    by_cases hg2 : (structLoop (lowerStr w0) 0 []).length
                        = (boundaryGroups cmu).length
                    · rw [if_pos hg2] at hs
                      injection hs with hpair
                      have hg := (congrArg Prod.fst hpair).symm
                      have hsy := (congrArg Prod.snd hpair).symm
                      simp only at hg hsy
                      refine Or.inl ⟨hg, ?_, Or.inr hsy⟩
                      rw [hg, hsy]
                      exact hg2
                    · rw [if_neg hg2] at hs
                      rw [if_neg (fun h => hf h.symm)] at hs
                      by_cases hvp : filterIdx (fun c => vowelsY.contains c) 0
                          (lowerStr w0) = []
                      · rw [if_pos hvp] at hs
                        injection hs with hpair
                        have hg := (congrArg Prod.fst hpair).symm
                        have hsy := (congrArg Prod.snd hpair).symm
                        simp only at hg hsy
                        exact Or.inr (Or.inl ⟨hg, hsy⟩)
                      · rw [if_neg hvp] at hs
                        injection hs with hpair
                        have hg := (congrArg Prod.fst hpair).symm
                        have hsy := (congrArg Prod.snd hpair).symm
                        simp only at hg hsy
                        refine Or.inr (Or.inr ⟨hg, ?_, hvp⟩)
                        rw [hg, hsy]

theorem get_phonetic_of_dct (dct : List Char → Option (List Sym))
    (w0 : List Char) (ph : List Sym) (cmu : List Sym)
    (hgp : get_phonetic dct (lowerStr w0) = some ph)
    (hdw : dct (lowerStr w0) = some cmu) : ph = cmu.map mapPhoneme := by
  unfold get_phonetic at hgp
  rw [lowerStr_idem, hdw] at hgp
  injection hgp with h
  exact h.symm

theorem usedAffixBranch_true (dct : List Char → Option (List Sym))
    (hyph : List Char → List (List Char)) (w0 : List Char)
    (ph : List Sym) (cmu : List Sym)
    (hgp : get_phonetic dct (lowerStr w0) = some ph) (hph : ph ≠ [])
    (hfp : alookup (lowerStr w0) forced_patterns = none)
    (hdw : dct (lowerStr w0) = some cmu)
    (her : ¬ erGuard (lowerStr w0) cmu (filterIdx isCmuVowel 0 cmu))
    (hex : ¬ exGuard (lowerStr w0)) (htu : ¬ tureGuard (lowerStr w0))
    (haf : (affixSection hyph (lowerStr w0) ph
      (filterIdx isCmuVowel 0 cmu)).isSome = true) :
    usedAffixBranch dct hyph w0 = true := by
  simp only [usedAffixBranch, hgp, hfp, hdw]
  rw [if_neg hph, if_neg her, if_neg hex, if_neg htu]
  exact haf

theorem split_lengths (dct : List Char → Option (List Sym))
    (hyph : List Char → List (List Char)) (w0 : List Char)
    (g : List (List Sym)) (s : List (List Char))
    (hs : split_syllables dct hyph w0 = some (g, s)) : g.length = s.length := by
  obtain ⟨ph, hgp, hph, hcase⟩ := split_characterize dct hyph w0 g s hs
  rcases hcase with ⟨pat, hfp, hg, hsy⟩ | ⟨hfp, cmu, hdw, hcase⟩
  · rw [hg, hsy, forcedAssign_length]
  · rcases hcase with ⟨her, hpair⟩ | ⟨her, hcase⟩
    · have hg := congrArg Prod.fst hpair
      have hsy := congrArg Prod.snd hpair
      simp only at hg hsy
      rw [hg, hsy]
      exact erBranch_lengths hyph (lowerStr w0) ph
    · rcases hcase with ⟨hex, hpair⟩ | ⟨hex, hcase⟩
      · have hg := congrArg Prod.fst hpair
        have hsy := congrArg Prod.snd hpair
        simp only at hg hsy
        rw [hg, hsy]
        exact exBranch_lengths hyph (lowerStr w0) ph
      · rcases hcase with ⟨htu, hpair⟩ | ⟨htu, hcase⟩
        · have hg := congrArg Prod.fst hpair
          have hsy := congrArg Prod.snd hpair
          simp only at hg hsy
          rw [hg, hsy]
          exact tureBranch_lengths hyph (lowerStr w0) ph
        · rcases hcase with haf | ⟨haf, hcase⟩
          · exact (affixSection_some hyph (lowerStr w0) ph _ g s haf).1
          · rcases hcase with ⟨hg, hlen, _⟩ | ⟨hg, hsy⟩ | ⟨hg, hsy, hvp⟩
            · exact hlen.symm
            · rw [hg, hsy]
              rfl
            · rw [hsy, evenSplitResult_length]
              rw [hg]
              exact boundaryGroups_length_pos cmu

theorem split_texts_flatten (dct : List Char → Option (List Sym))
    (hyph : List Char → List (List Char)) (w0 : List Char)
    (g : List (List Sym)) (s : List (List Char))
    (hh : ∀ t, (hyph t).flatten = t)
    (hs : split_syllables dct hyph w0 = some (g, s)) :
    s.flatten = lowerStr w0 := by
  obtain ⟨ph, hgp, hph, hcase⟩ := split_characterize dct hyph w0 g s hs
  rcases hcase with ⟨pat, hfp, hg, hsy⟩ | ⟨hfp, cmu, hdw, hcase⟩
  · have hmem := alookup_mem _ _ _ hfp
    have := (forced_facts _ hmem).2
    rw [hsy]
    exact this
  · rcases hcase with ⟨her, hpair⟩ | ⟨her, hcase⟩
    · have hsy := congrArg Prod.snd hpair
      simp only at hsy
      rw [hsy]
      exact erBranch_texts_flatten hyph (lowerStr w0) ph hh her.1
    · rcases hcase with ⟨hex, hpair⟩ | ⟨hex, hcase⟩
      · have hsy := congrArg Prod.snd hpair
        simp only at hsy
        rw [hsy]
        exact exBranch_texts_flatten hyph (lowerStr w0) ph hh hex.1
      · rcases hcase with ⟨htu, hpair⟩ | ⟨htu, hcase⟩
        · have hsy := congrArg Prod.snd hpair
          simp only at hsy
          rw [hsy]
          exact tureBranch_texts_flatten hyph (lowerStr w0) ph hh htu.1
        · rcases hcase with haf | ⟨haf, hcase⟩
          · exact (affixSection_some hyph (lowerStr w0) ph _ g s haf).2 hh
          · rcases hcase with ⟨hg, hlen, hsy | hsy⟩ | ⟨hg, hsy⟩ | ⟨hg, hsy, hvp⟩
            · rw [hsy]
              exact hh _
            · rw [hsy]
              exact structLoop_flatten_top (lowerStr w0)
            · rw [hsy]
              simp
            · rw [hsy]
              exact evenSplitResult_flatten (lowerStr w0) g.length _
                (filterIdx_pairwise _ _ _)
                (fun x hx => by
                  have := filterIdx_lt (fun c => vowelsY.contains c) _ 0 x hx
                  omega)
                hvp

theorem split_groups_flatten (dct : List Char → Option (List Sym))
    (hyph : List Char → List (List Char)) (w0 : List Char)
    (g : List (List Sym)) (s : List (List Char)) (ph : List Sym)
    (hh : ∀ t, (hyph t).flatten = t)
    (huab : usedAffixBranch dct hyph w0 = false)
    (hgp : get_phonetic dct (lowerStr w0) = some ph)
    (hs : split_syllables dct hyph w0 = some (g, s)) :
    g.flatten = ph := by
  obtain ⟨ph', hgp', hph, hcase⟩ := split_characterize dct hyph w0 g s hs
  rw [hgp] at hgp'
  injection hgp' with hpheq
  subst hpheq
  rcases hcase with ⟨pat, hfp, hg, hsy⟩ | ⟨hfp, cmu, hdw, hcase⟩
  · have hmem := alookup_mem _ _ _ hfp
    rw [hg]
    exact forcedAssign_flatten pat ph (forced_facts _ hmem).1
  · rcases hcase with ⟨her, hpair⟩ | ⟨her, hcase⟩
    · have hg := congrArg Prod.fst hpair
      simp only at hg
      rw [hg]
      exact erBranch_groups_flatten hyph (lowerStr w0) ph
    · rcases hcase with ⟨hex, hpair⟩ | ⟨hex, hcase⟩
      · have hg := congrArg Prod.fst hpair
        simp only at hg
        rw [hg]
        refine exBranch_groups_flatten hyph (lowerStr w0) ph ?_
        intro hcon
        have hx := hh ((lowerStr w0).drop 2)
        rw [hcon] at hx
        have hd2 : (lowerStr w0).drop 2 = [] := hx.symm
        have := List.drop_eq_nil_iff.mp hd2
        have h2 := hex.2
        omega
      · rcases hcase with ⟨htu, hpair⟩ | ⟨htu, hcase⟩
        · have hg := congrArg Prod.fst hpair
          simp only at hg
          rw [hg]
          refine tureBranch_groups_flatten hyph (lowerStr w0) ph hph ?_
          intro hcon
          have hx := hh ((lowerStr w0).take ((lowerStr w0).length - 4))
          rw [hcon] at hx
          have ht4 : (lowerStr w0).take ((lowerStr w0).length - 4) = [] := hx.symm
          have h4 := htu.2.1
          rcases List.take_eq_nil_iff.mp ht4 with h0 | h0
          · omega
          · rw [h0] at h4
            simp at h4
        · rcases hcase with haf | ⟨haf, hcase⟩
          · exfalso
            have := usedAffixBranch_true dct hyph w0 ph cmu hgp hph hfp hdw
              her hex htu (by rw [haf]; rfl)
            rw [huab] at this
            cases this
          · have hphcmu : ph = cmu.map mapPhoneme :=
              get_phonetic_of_dct dct w0 ph cmu hgp hdw
            rcases hcase with ⟨hg, _, _⟩ | ⟨hg, hsy⟩ | ⟨hg, _, _⟩
            · rw [hg, boundaryGroups_flatten, hphcmu]
            · rw [hg]
              simp
            · rw [hg, boundaryGroups_flatten, hphcmu]

/-! ## Lemmas: analyze assembly and remaining prerequisites -/

theorem analyze_ok (dct : List Char → Option (List Sym))
    (hyph : List Char → List (List Char)) (raw : List Char) (r : AnalyzeResult)
    (hr : analyze_word dct hyph raw = Except.ok r) :
    ∃ ph g s,
      get_phonetic dct (normalizeInput raw) = some ph ∧
      split_syllables dct hyph (normalizeInput raw) = some (g, s) ∧
      r = ⟨normalizeInput raw, ph,
        (s.zip g).map (fun p => ⟨p.1, p.2⟩)⟩ := by
  simp only [analyze_word] at hr
  by_cases hw : normalizeInput raw = []
  · rw [if_pos hw] at hr
    cases hr
  · rw [if_neg hw] at hr
    cases hgp : get_phonetic dct (normalizeInput raw) with
    | none =>
      simp only [hgp] at hr
      cases hr
    | some ph =>
      simp only [hgp] at hr
      by_cases hph : ph = []
      · rw [if_pos hph] at hr
        cases hr
      · rw [if_neg hph] at hr
        cases hsp : split_syllables dct hyph (normalizeInput raw) with
        | none =>
          simp only [hsp] at hr
          cases hr
        | some gs =>
          obtain ⟨g, s⟩ := gs
          simp only [hsp] at hr
          by_cases hnil : (g, s).1 = [] ∨ (g, s).2 = []
          · rw [if_pos hnil] at hr
            cases hr
          · rw [if_neg hnil] at hr
            injection hr with hres
            exact ⟨ph, g, s, rfl, rfl, hres.symm⟩

theorem alookup_eq_none [DecidableEq κ] (k : κ) :
    ∀ l : List (κ × β), (∀ p ∈ l, p.1 ≠ k) → alookup k l = none
  | [], _ => rfl
  | (a, b) :: r, h => by
    unfold alookup
    rw [if_neg (h (a, b) (List.mem_cons_self _ _))]
    exact alookup_eq_none k r fun p hp => h p (List.mem_cons_of_mem _ hp)

theorem scanSkip_all (p : Char → Bool) (word : List Char)
    (hall : ∀ c ∈ word, p c) (j : Nat) :
    scanSkip p word j = word.length - j := by
  induction j using scanSkip.induct p word with
  | case1 j h hp ih =>
    rw [scanSkip, dif_pos h, if_pos hp, ih]
    omega
  | case2 j h hp =>
    exfalso
    exact hp (hall _ (List.get_mem word j h))
  | case3 j h =>
    rw [scanSkip, dif_neg h]
    omega

theorem boundaryGroups_singleton (cmu : List Sym)
    (h1 : (boundaryGroups cmu).length = 1) :
    boundaryGroups cmu = [cmu.map mapPhoneme] := by
  unfold boundaryGroups at h1 ⊢
  rw [List.length_map, splitAtBds_length] at h1
  have hb : boundariesFrom (filterIdx isCmuVowel 0 cmu) = [] :=
    List.length_eq_zero.mp (by omega)
  rw [hb]
  rfl

theorem split_forced (dct : List Char → Option (List Sym))
    (hyph : List Char → List (List Char)) (w0 : List Char)
    (pat : List (List Char)) (ph : List Sym)
    (hfp : alookup (lowerStr w0) forced_patterns = some pat)
    (hgp : get_phonetic dct (lowerStr w0) = some ph) (hph : ph ≠ []) :
    split_syllables dct hyph w0 = some (forcedAssign pat ph, pat) := by
  simp only [split_syllables, hgp]
  rw [if_neg hph]
  simp only [hfp]

/-! ## Vowel-less words -/

theorem contains_eq_false_of_not_mem (l : List Char) (c : Char) (h : c ∉ l) :
    l.contains c = false := by
  simpa using h

theorem isSuffixOf_eq_false_novowel (word : List Char)
    (hnv : ∀ c ∈ word, c ∉ vowelsY) (s : List Char) (c : Char)
    (hcs : c ∈ s) (hcv : c ∈ vowelsY) : s.isSuffixOf word = false := by
  cases hb : s.isSuffixOf word with
  | false => rfl
  | true =>
    exact absurd hcv (hnv c ((List.isSuffixOf_iff_suffix.mp hb).subset hcs))

theorem isPrefixOf_eq_false_novowel (word : List Char)
    (hnv : ∀ c ∈ word, c ∉ vowelsY) (s : List Char) (c : Char)
    (hcs : c ∈ s) (hcv : c ∈ vowelsY) : s.isPrefixOf word = false := by
  cases hb : s.isPrefixOf word with
  | false => rfl
  | true =>
    exact absurd hcv (hnv c ((List.isPrefixOf_iff_prefix.mp hb).subset hcs))

theorem findSfx_novowel (word : List Char) (hnv : ∀ c ∈ word, c ∉ vowelsY) :
    findSfx word = none := by
  refine List.find?_eq_none.mpr ?_
  intro p hp
  obtain ⟨c, hc1, hc2⟩ := sortedSfx_vowel p hp
  simp [isSuffixOf_eq_false_novowel word hnv p.1 c hc1 hc2]

theorem findPfx_novowel (word : List Char) (hnv : ∀ c ∈ word, c ∉ vowelsY) :
    findPfx word = none := by
  refine List.find?_eq_none.mpr ?_
  intro p hp
  obtain ⟨c, hc1, hc2⟩ := sortedPfx_vowel p hp
  simp [isPrefixOf_eq_false_novowel word hnv p.1 c hc1 hc2]

theorem affixSection_novowel (hyph : List Char → List (List Char))
    (word : List Char) (phonemes : List Sym) (vi : List Nat)
    (hnv : ∀ c ∈ word, c ∉ vowelsY) :
    affixSection hyph word phonemes vi = none := by
  have hsfx := findSfx_novowel word hnv
  have hpfx := findPfx_novowel word hnv
  cases word with
  | nil =>
    simp only [affixSection, hsfx]
    simp only [hpfx]
    simp
  | cons c r =>
    have hcn : c ∉ vowelsNoY := fun hmem =>
      hnv c (List.mem_cons_self c r)
        ((by decide : ∀ x ∈ vowelsNoY, x ∈ vowelsY) c hmem)
    simp only [affixSection, hsfx]
    simp only [hpfx]
    simp [hcn]

theorem structLoop_novowel (word : List Char) (hne : word ≠ [])
    (hnv : ∀ c ∈ word, c ∉ vowelsY) : structLoop word 0 [] = [word] := by
  have hlen : 0 < word.length := List.length_pos.mpr hne
  rw [structLoop, dif_pos hlen]
  have hfind : (sortedSfx.map (fun x => x.1)).find?
      (fun s => s.isSuffixOf (word.drop 0)
        && decide (0 + s.length < word.length)) = none := by
    refine List.find?_eq_none.mpr ?_
    intro s hs
    obtain ⟨p, hp, rfl⟩ := List.mem_map.mp hs
    obtain ⟨c, hc1, hc2⟩ := sortedSfx_vowel p hp
    simp [List.drop_zero, isSuffixOf_eq_false_novowel word hnv p.1 c hc1 hc2]
  simp only [hfind]
  have hget : vowelsY.contains (word.get ⟨0, hlen⟩) = false :=
    contains_eq_false_of_not_mem _ _ (hnv _ (List.get_mem word 0 hlen))
  have hgetn : ¬ (vowelsY.contains (word.get ⟨0, hlen⟩) = true) := by
    rw [hget]
    decide
  rw [if_neg hgetn]
  have hvp : scanToVowel word 0 = word.length := by
    unfold scanToVowel
    rw [scanSkip_all _ _ (fun c hc => by simpa using hnv c hc)]
    omega
  simp [hvp, List.drop_zero]

theorem split_syllables_novowel (dct : List Char → Option (List Sym))
    (hyph : List Char → List (List Char)) (w0 : List Char) (cmu : List Sym)
    (hnv : ∀ c ∈ lowerStr w0, c ∉ vowelsY) (hww : lowerStr w0 ≠ [])
    (hdw : dct (lowerStr w0) = some cmu) (hcne : cmu ≠ [])
    (hhy : hyph (lowerStr w0) = [lowerStr w0]) :
    split_syllables dct hyph w0 = some ([cmu.map mapPhoneme], [lowerStr w0]) := by
  have hgp : get_phonetic dct (lowerStr w0) = some (cmu.map mapPhoneme) := by
    unfold get_phonetic
    rw [lowerStr_idem, hdw]
  have hph : cmu.map mapPhoneme ≠ [] := fun hcon =>
    hcne (List.map_eq_nil_iff.mp hcon)
  have hfp : alookup (lowerStr w0) forced_patterns = none := by
    refine alookup_eq_none _ _ ?_
    intro p hp heq
    obtain ⟨c, hc1, hc2⟩ := forced_keys_vowel p hp
    exact hnv c (heq ▸ hc1) hc2
  have her : ¬ erGuard (lowerStr w0) cmu (filterIdx isCmuVowel 0 cmu) := by
    intro hg
    exact hnv 'e' ((List.isSuffixOf_iff_suffix.mp hg.1).subset (by decide))
      (by decide)
  have hex : ¬ exGuard (lowerStr w0) := by
    intro hg
    exact hnv 'e' ((List.isPrefixOf_iff_prefix.mp hg.1).subset (by decide))
      (by decide)
  have htu : ¬ tureGuard (lowerStr w0) := by
    intro hg
    exact hnv 'u' ((List.isSuffixOf_iff_suffix.mp hg.1).subset (by decide))
      (by decide)
  have haff := affixSection_novowel hyph (lowerStr w0) (cmu.map mapPhoneme)
    (filterIdx isCmuVowel 0 cmu) hnv
  simp only [split_syllables, hgp]
  rw [if_neg hph]
  simp only [hfp]
  simp only [hdw]
  rw [if_neg her, if_neg hex, if_neg htu]
  simp only [haff]
  rw [hhy]
  by_cases hbg : (boundaryGroups cmu).length = 1
  · rw [if_pos (by rw [hbg]; rfl)]
    rw [boundaryGroups_singleton cmu hbg]
  · rw [if_neg (by simpa using hbg)]
    rw [structLoop_novowel _ hww hnv]
    rw [if_neg (by intro h; exact hbg (by simpa using h.symm))]
    rw [if_neg (by intro h; exact hbg (by simpa using h.symm))]
    have hvpos : filterIdx (fun c => vowelsY.contains c) 0 (lowerStr w0) = [] := by
      refine filterIdx_eq_nil _ _ _ ?_
      intro c hc
      simpa using hnv c hc
    rw [if_pos hvpos]

/-! ## The stress-digit bridge for the phoneme mapping -/

theorem stripDigits_eq_stripTrailingDigits (p : Sym)
    (h : ∀ c ∈ stripTrailingDigits p, c.isDigit = false) :
    stripDigits p = stripTrailingDigits p := by
  have hp : (p.reverse.dropWhile Char.isDigit).reverse
      ++ (p.reverse.takeWhile Char.isDigit).reverse = p := by
    rw [← List.reverse_append, List.takeWhile_append_dropWhile,
      List.reverse_reverse]
  unfold stripDigits stripTrailingDigits
  conv_lhs => rw [← hp]
  rw [List.filter_append]
  have h1 : (p.reverse.dropWhile Char.isDigit).reverse.filter
      (fun c => !c.isDigit) = (p.reverse.dropWhile Char.isDigit).reverse := by
    rw [List.filter_eq_self]
    intro a ha
    simp [h a ha]
  have h2 : (p.reverse.takeWhile Char.isDigit).reverse.filter
      (fun c => !c.isDigit) = [] := by
    rw [List.filter_eq_nil_iff]
    intro a ha
    have hd := List.mem_takeWhile_imp (List.mem_reverse.mp ha)
    simp [hd]
  rw [h1, h2, List.append_nil]

/-! ## Claim theorems -/

/-- C1: for every word with a dictionary entry for which `analyze` succeeds,
concatenating the `text` fields of the returned syllables, in order, yields
exactly the normalized lowercase word (assuming the hyphenator only inserts
boundaries, as pyphen does). -/
theorem C1_texts_reconstruct_word (dct : List Char → Option (List Sym))
    (hyph : List Char → List (List Char)) (raw : List Char) (r : AnalyzeResult)
    (hh : ∀ t, (hyph t).flatten = t)
    (hr : analyze_word dct hyph raw = Except.ok r) :
    (r.syllables.map (fun sy => sy.text)).flatten = r.word
    ∧ r.word = normalizeInput raw := by
  obtain ⟨ph, g, s, hgp, hsp, hres⟩ := analyze_ok dct hyph raw r hr
  subst hres
  refine ⟨?_, rfl⟩
  have hlen := split_lengths dct hyph (normalizeInput raw) g s hsp
  have hmap : (((s.zip g).map (fun p => (⟨p.1, p.2⟩ : SyllableOut))).map
      (fun sy => sy.text)) = (s.zip g).map Prod.fst := by
    rw [List.map_map]
    rfl
  show (((s.zip g).map (fun p => (⟨p.1, p.2⟩ : SyllableOut))).map
      (fun sy => sy.text)).flatten = normalizeInput raw
  rw [hmap, List.map_fst_zip s g (Nat.le_of_eq hlen.symm),
    split_texts_flatten dct hyph (normalizeInput raw) g s hh hsp,
    lowerStr_normalizeInput]

/-- Witness for C1 at the concrete word `hunter`. -/
theorem C1_witness :
    (r_hunter.syllables.map (fun sy => sy.text)).flatten = r_hunter.word
    ∧ r_hunter.word = normalizeInput ("hunter".toList) :=
  C1_texts_reconstruct_word dct₀ hyph₀ ("hunter".toList) r_hunter
    (fun t => by simp [hyph₀]) (by decide)

/-- C2 (amended): for every word for which `analyze` succeeds without the
affix-structure branch of `split_syllables` (lines 309-415), the returned
per-syllable phoneme groups concatenate, in order, to the full mapped
phoneme sequence; on the affix-structure branch the invariant can fail. -/
theorem C2_amended_groups_flatten (dct : List Char → Option (List Sym))
    (hyph : List Char → List (List Char)) (raw : List Char) (r : AnalyzeResult)
    (hh : ∀ t, (hyph t).flatten = t)
    (huab : usedAffixBranch dct hyph (normalizeInput raw) = false)
    (hr : analyze_word dct hyph raw = Except.ok r) :
    (r.syllables.map (fun sy => sy.phonetic)).flatten = r.full_phonetic := by
  obtain ⟨ph, g, s, hgp, hsp, hres⟩ := analyze_ok dct hyph raw r hr
  subst hres
  have hlen := split_lengths dct hyph (normalizeInput raw) g s hsp
  have hmap : (((s.zip g).map (fun p => (⟨p.1, p.2⟩ : SyllableOut))).map
      (fun sy => sy.phonetic)) = (s.zip g).map Prod.snd := by
    rw [List.map_map]
    rfl
  show (((s.zip g).map (fun p => (⟨p.1, p.2⟩ : SyllableOut))).map
      (fun sy => sy.phonetic)).flatten = ph
  rw [hmap, List.map_snd_zip s g (Nat.le_of_eq hlen)]
  refine split_groups_flatten dct hyph (normalizeInput raw) g s ph hh huab ?_ hsp
  rw [lowerStr_normalizeInput]
  exact hgp

/-- Counterexample for C2 as stated: for the real dictionary entry
`one -> W AH1 N` the affix-structure branch replaces the phoneme groups by
table values, and the concatenation of groups differs from `full_phonetic`
(a phoneme is dropped and another duplicated). -/
theorem C2_counterexample :
    analyze_word dct₀ hyph₀ ("one".toList) = Except.ok r_one
    ∧ (r_one.syllables.map (fun sy => sy.phonetic)).flatten
        ≠ r_one.full_phonetic := by
  constructor
  · decide
  · decide

/-- Witness for the amended C2 at the concrete word `hunter` (the
forced-pattern branch, not the affix-structure branch). -/
theorem C2_witness :
    (r_hunter.syllables.map (fun sy => sy.phonetic)).flatten
      = r_hunter.full_phonetic :=
  C2_amended_groups_flatten dct₀ hyph₀ ("hunter".toList) r_hunter
    (fun t => by simp [hyph₀]) (by decide) (by decide)

/-- C3 (code-bug evidence): the full success response for `hunter` consists
of exactly the fields `word`, `full_phonetic` and `syllables`; the response
carries no natural-reading decomposition at all, although the repository's
client documents one. -/
theorem C3_response_has_no_natural_reading :
    analyze_word dct₀ hyph₀ ("hunter".toList) = Except.ok r_hunter := by
  decide

/-- C4: `analyze` yields the invalid-input error iff the word is empty after
normalization, and the word-not-found error iff the normalized word is
non-empty and absent from the dictionary (whose entries are non-empty
pronunciations); in particular `analyze ""` is invalid input and
`analyze "zzz"` is word-not-found. -/
theorem C4_error_conditions (dct : List Char → Option (List Sym))
    (hyph : List Char → List (List Char)) (raw : List Char)
    (hwf : ∀ w e, dct w = some e → e ≠ []) :
    (analyze_word dct hyph raw = Except.error AnalyzeError.invalidInput
      ↔ normalizeInput raw = [])
    ∧ (analyze_word dct hyph raw = Except.error AnalyzeError.wordNotFound
      ↔ normalizeInput raw ≠ [] ∧ dct (normalizeInput raw) = none)
    ∧ analyze_word dct₀ hyph₀ ("".toList) = Except.error AnalyzeError.invalidInput
    ∧ analyze_word dct₀ hyph₀ ("zzz".toList)
        = Except.error AnalyzeError.wordNotFound := by
  refine ⟨?_, ?_, by decide, by decide⟩ <;>
  · simp only [analyze_word]
    by_cases hw : normalizeInput raw = []
    · rw [if_pos hw]
      simp [hw]
    · rw [if_neg hw]
      cases hdw : dct (normalizeInput raw) with
      | none =>
        have hgp : get_phonetic dct (normalizeInput raw) = none := by
          unfold get_phonetic
          rw [lowerStr_normalizeInput, hdw]
        simp [hgp, hw]
      | some e =>
        have hgp : get_phonetic dct (normalizeInput raw)
            = some (e.map mapPhoneme) := by
          unfold get_phonetic
          rw [lowerStr_normalizeInput, hdw]
        have hne : e.map mapPhoneme ≠ [] := by
          intro hcon
          exact hwf _ _ hdw (List.map_eq_nil_iff.mp hcon)
        simp only [hgp, if_neg hne]
        cases hsp : split_syllables dct hyph (normalizeInput raw) with
        | none => simp [hw]
        | some gs =>
          by_cases hnil : gs.1 = [] ∨ gs.2 = []
          · simp [hnil, hw]
          · simp [hnil, hw]

/-- Witness for C4 at a dictionary with non-empty entries and a word with
surrounding whitespace. -/
theorem C4_witness :
    (analyze_word dct₀ hyph₀ (" zzz ".toList)
        = Except.error AnalyzeError.invalidInput
      ↔ normalizeInput (" zzz ".toList) = [])
    ∧ (analyze_word dct₀ hyph₀ (" zzz ".toList)
        = Except.error AnalyzeError.wordNotFound
      ↔ normalizeInput (" zzz ".toList) ≠ []
        ∧ dct₀ (normalizeInput (" zzz ".toList)) = none)
    ∧ analyze_word dct₀ hyph₀ ("".toList) = Except.error AnalyzeError.invalidInput
    ∧ analyze_word dct₀ hyph₀ ("zzz".toList)
        = Except.error AnalyzeError.wordNotFound :=
  C4_error_conditions dct₀ hyph₀ (" zzz ".toList)
    (fun w e h =>
      (by decide : ∀ p ∈ cmuFragment, p.2 ≠ []) _ (alookup_mem w e _ h))

/-- C5: `analyze` is deterministic — its result depends only on the
normalized word, so repeated calls agree — and case-insensitive: lowering
the input does not change the output; in particular `Hunter` and `hunter`
give the same result. -/
theorem C5_deterministic_case_insensitive (dct : List Char → Option (List Sym))
    (hyph : List Char → List (List Char)) :
    (∀ raw1 raw2, normalizeInput raw1 = normalizeInput raw2 →
      analyze_word dct hyph raw1 = analyze_word dct hyph raw2)
    ∧ (∀ raw, analyze_word dct hyph (lowerStr raw) = analyze_word dct hyph raw)
    ∧ analyze_word dct₀ hyph₀ ("Hunter".toList)
        = analyze_word dct₀ hyph₀ ("hunter".toList) := by
  have hdet : ∀ raw1 raw2, normalizeInput raw1 = normalizeInput raw2 →
      analyze_word dct hyph raw1 = analyze_word dct hyph raw2 := by
    intro raw1 raw2 h
    simp only [analyze_word, h]
  refine ⟨hdet, fun raw => hdet _ _ (normalizeInput_lowerStr raw), by decide⟩

/-- Witness for C5: two spellings of the same word after normalization. -/
theorem C5_witness :
    analyze_word dct₀ hyph₀ ("  Hunter ".toList)
      = analyze_word dct₀ hyph₀ ("hunter".toList) :=
  (C5_deterministic_case_insensitive dct₀ hyph₀).1 ("  Hunter ".toList)
    ("hunter".toList) (by decide)

/-- C10: whenever `split_syllables` returns a result, the phoneme-group
list and the syllable-text list have the same length, so the zip in the
response assembly pairs every text with exactly one group and drops
nothing. -/
theorem C10_lengths_match (dct : List Char → Option (List Sym))
    (hyph : List Char → List (List Char)) (w0 : List Char)
    (g : List (List Sym)) (s : List (List Char))
    (hs : split_syllables dct hyph w0 = some (g, s)) :
    g.length = s.length ∧ (s.zip g).length = s.length := by
  have h := split_lengths dct hyph w0 g s hs
  refine ⟨h, ?_⟩
  rw [List.length_zip, h, Nat.min_self]

/-- Witness for C10 at the concrete word `one`. -/
theorem C10_witness :
    (([["ə".toList], ["ə".toList, "n".toList]] : List (List Sym)).length
      = ([['o'], ['n', 'e']] : List (List Char)).length)
    ∧ ((([['o'], ['n', 'e']] : List (List Char)).zip
        ([["ə".toList], ["ə".toList, "n".toList]] : List (List Sym))).length
      = ([['o'], ['n', 'e']] : List (List Char)).length) :=
  C10_lengths_match dct₀ hyph₀ ("one".toList)
    [["ə".toList], ["ə".toList, "n".toList]] [['o'], ['n', 'e']] (by decide)

/-- C6 (amended): every word whose normalized form is registered in the
forced-pattern table short-circuits to its registered override — the
registered texts are returned verbatim with the phonemes allocated to them
by length, and no heuristic stage or hyphenator is consulted (the result
does not depend on the hyphenator).  `good`, however, is not registered:
see the counterexample. -/
theorem C6_amended_registered_shortcut (dct : List Char → Option (List Sym))
    (hyph hyph2 : List Char → List (List Char)) (w0 : List Char)
    (pat : List (List Char)) (ph : List Sym)
    (hfp : alookup (lowerStr w0) forced_patterns = some pat)
    (hgp : get_phonetic dct (lowerStr w0) = some ph) (hph : ph ≠ []) :
    split_syllables dct hyph w0 = some (forcedAssign pat ph, pat)
    ∧ split_syllables dct hyph w0 = split_syllables dct hyph2 w0 := by
  have h1 := split_forced dct hyph w0 pat ph hfp hgp hph
  have h2 := split_forced dct hyph2 w0 pat ph hfp hgp hph
  exact ⟨h1, h1.trans h2.symm⟩

/-- Counterexample for C6 as stated: `good` is not in the special-case
table; `analyze "good"` does return a single syllable `good`, but with the
raw unconverted group `["G","UH","D"]`, not `["g","ʊ","d"]`, and via the
pyphen-agreement path rather than a registered override. -/
theorem C6_counterexample :
    alookup ("good".toList) forced_patterns = none
    ∧ analyze_word dct₀ hyph₀ ("good".toList) = Except.ok r_good
    ∧ r_good.syllables
        ≠ [⟨"good".toList, ["g".toList, "ʊ".toList, "d".toList]⟩] := by
  refine ⟨by decide, by decide, by decide⟩

/-- Witness for the amended C6 at `hunter`, with a second hyphenator that
the forced path never consults. -/
theorem C6_witness :
    (split_syllables dct₀ hyph₀ ("hunter".toList)
      = some (forcedAssign ["hun".toList, "ter".toList]
          ["h".toList, "ə".toList, "n".toList, "t".toList, "ɝ".toList],
          ["hun".toList, "ter".toList]))
    ∧ split_syllables dct₀ hyph₀ ("hunter".toList)
      = split_syllables dct₀ (fun t => [t.take 1, t.drop 1]) ("hunter".toList) :=
  C6_amended_registered_shortcut dct₀ hyph₀ (fun t => [t.take 1, t.drop 1])
    ("hunter".toList) ["hun".toList, "ter".toList]
    ["h".toList, "ə".toList, "n".toList, "t".toList, "ɝ".toList]
    (by decide) (by decide) (by decide)

/-- C7: for any dictionary containing the standard CMU entries for `hunter`
and `paper`, and any hyphenator, `analyze` returns the syllable texts
`["hun","ter"]` for `hunter` and `["pa","per"]` for `paper`; the phoneme
groups for `hunter` are `[["h","ə","n"],["t","ɝ"]]`, the table's rendering
of the spec's approximate `[["h","ʌ","n"],["t","ər"]]`. -/
theorem C7_hunter_paper (dct : List Char → Option (List Sym))
    (hyph : List Char → List (List Char))
    (hdh : dct ("hunter".toList)
      = some ["HH".toList, "AH1".toList, "N".toList, "T".toList, "ER0".toList])
    (hdp : dct ("paper".toList)
      = some ["P".toList, "EY1".toList, "P".toList, "ER0".toList]) :
    analyze_word dct hyph ("hunter".toList) = Except.ok r_hunter
    ∧ analyze_word dct hyph ("paper".toList) = Except.ok r_paper
    ∧ r_hunter.syllables.map (fun sy => sy.text) = ["hun".toList, "ter".toList]
    ∧ r_paper.syllables.map (fun sy => sy.text) = ["pa".toList, "per".toList] := by
  have hlh : lowerStr ("hunter".toList) = "hunter".toList := by decide
  have hgph : get_phonetic dct ("hunter".toList)
      = some ["h".toList, "ə".toList, "n".toList, "t".toList, "ɝ".toList] := by
    unfold get_phonetic
    rw [hlh, hdh]
    rfl
  have hsph := split_forced dct hyph ("hunter".toList)
    ["hun".toList, "ter".toList]
    ["h".toList, "ə".toList, "n".toList, "t".toList, "ɝ".toList]
    (by decide) (by rw [hlh]; exact hgph) (by decide)
  have hlp : lowerStr ("paper".toList) = "paper".toList := by decide
  have hgpp : get_phonetic dct ("paper".toList)
      = some ["P".toList, "eɪ".toList, "P".toList, "ɝ".toList] := by
    unfold get_phonetic
    rw [hlp, hdp]
    rfl
  have hspp := split_forced dct hyph ("paper".toList)
    ["pa".toList, "per".toList]
    ["P".toList, "eɪ".toList, "P".toList, "ɝ".toList]
    (by decide) (by rw [hlp]; exact hgpp) (by decide)
  have hnh : normalizeInput ("hunter".toList) = "hunter".toList := by decide
  have hnp : normalizeInput ("paper".toList) = "paper".toList := by decide
  refine ⟨?_, ?_, by decide, by decide⟩
  · simp only [analyze_word, hnh, hgph, hsph]
    decide
  · simp only [analyze_word, hnp, hgpp, hspp]
    decide

/-- Witness for C7 at the concrete dictionary fragment. -/
theorem C7_witness :
    analyze_word dct₀ hyph₀ ("hunter".toList) = Except.ok r_hunter
    ∧ analyze_word dct₀ hyph₀ ("paper".toList) = Except.ok r_paper
    ∧ r_hunter.syllables.map (fun sy => sy.text) = ["hun".toList, "ter".toList]
    ∧ r_paper.syllables.map (fun sy => sy.text) = ["pa".toList, "per".toList] :=
  C7_hunter_paper dct₀ hyph₀ (by decide) (by decide)

/-- C8 (amended): the phoneme mapping removes the digits of each source
symbol (equivalently, strips the trailing stress digits, for any symbol
whose digits are all trailing, as in every CMU symbol), looks the base up
in the fixed table, and passes an unknown base symbol through unchanged —
not lowercased; the output has exactly one target symbol per source symbol,
in the same order. -/
theorem C8_amended_mapping (dct : List Char → Option (List Sym))
    (w : List Char) (ph cmu : List Sym)
    (hgp : get_phonetic dct w = some ph)
    (hdw : dct (lowerStr w) = some cmu) :
    ph = cmu.map mapPhoneme
    ∧ ph.length = cmu.length
    ∧ (∀ p ∈ cmu, (∀ c ∈ stripTrailingDigits p, c.isDigit = false) →
        mapPhoneme p = specMapSym p) := by
  unfold get_phonetic at hgp
  rw [hdw] at hgp
  injection hgp with h
  refine ⟨h.symm, by rw [← h, List.length_map], ?_⟩
  intro p hp hdt
  simp only [mapPhoneme, specMapSym]
  rw [stripDigits_eq_stripTrailingDigits p hdt]

/-- Counterexample for C8 as stated: the symbol `UH1` (from the CMU entry
for `good`) has base `UH`, absent from the table; the code passes it
through unchanged as `UH`, not lowercased to `uh` as the spec says. -/
theorem C8_counterexample :
    mapPhoneme ("UH1".toList) = "UH".toList
    ∧ specMapSymLower ("UH1".toList) = "uh".toList
    ∧ mapPhoneme ("UH1".toList) ≠ specMapSymLower ("UH1".toList) := by
  refine ⟨by decide, by decide, by decide⟩

/-- Witness for the amended C8 at the entry for `good`. -/
theorem C8_witness :
    (["G".toList, "UH".toList, "D".toList] : List Sym)
      = (["G".toList, "UH1".toList, "D".toList] : List Sym).map mapPhoneme
    ∧ (["G".toList, "UH".toList, "D".toList] : List Sym).length
      = (["G".toList, "UH1".toList, "D".toList] : List Sym).length
    ∧ (∀ p ∈ (["G".toList, "UH1".toList, "D".toList] : List Sym),
        (∀ c ∈ stripTrailingDigits p, c.isDigit = false) →
        mapPhoneme p = specMapSym p) :=
  C8_amended_mapping dct₀ ("good".toList)
    ["G".toList, "UH".toList, "D".toList]
    ["G".toList, "UH1".toList, "D".toList] (by decide) (by decide)

/-- C9: for a dictionary word whose normalized spelling contains no vowel
letter (a, e, i, o, u, y), `analyze` returns exactly one syllable whose
text is the whole word, carrying the entire mapped phoneme sequence (the
hyphenator, like pyphen, is assumed to return a vowel-less word whole). -/
theorem C9_novowel_single_syllable (dct : List Char → Option (List Sym))
    (hyph : List Char → List (List Char)) (raw : List Char) (cmu : List Sym)
    (hnv : ∀ c ∈ normalizeInput raw, c ∉ vowelsY)
    (hne : normalizeInput raw ≠ [])
    (hdw : dct (normalizeInput raw) = some cmu) (hcne : cmu ≠ [])
    (hhy : hyph (normalizeInput raw) = [normalizeInput raw]) :
    analyze_word dct hyph raw
      = Except.ok ⟨normalizeInput raw, cmu.map mapPhoneme,
          [⟨normalizeInput raw, cmu.map mapPhoneme⟩]⟩ := by
  have hl := lowerStr_normalizeInput raw
  have hsp := split_syllables_novowel dct hyph (normalizeInput raw) cmu
    (by rw [hl]; exact hnv) (by rw [hl]; exact hne) (by rw [hl]; exact hdw)
    hcne (by rw [hl]; exact hhy)
  rw [hl] at hsp
  have hgp : get_phonetic dct (normalizeInput raw)
      = some (cmu.map mapPhoneme) := by
    unfold get_phonetic
    rw [hl, hdw]
  have hph : cmu.map mapPhoneme ≠ [] := fun hcon =>
    hcne (List.map_eq_nil_iff.mp hcon)
  simp only [analyze_word]
  rw [if_neg hne]
  simp only [hgp]
  rw [if_neg hph]
  simp only [hsp]
  rw [if_neg (by simp)]
  rfl

/-- Witness for C9 at the vowel-less dictionary word `hmm`. -/
theorem C9_witness :
    analyze_word dct₀ hyph₀ ("hmm".toList)
      = Except.ok ⟨"hmm".toList, ["h".toList, "M".toList],
          [⟨"hmm".toList, ["h".toList, "M".toList]⟩]⟩ :=
  C9_novowel_single_syllable dct₀ hyph₀ ("hmm".toList)
    ["HH".toList, "M".toList] (by decide) (by decide) (by decide) (by decide)
    (by decide)

end WordAnalyzer
